import Mathlib

/-!
# Verification of the mdgraph graph-synchronization engine

A shallow embedding of the core of the `mdgraph` repository:
the graph model and full-scan builder (`src-tauri/src/graph/mod.rs`),
the reference index (`src-tauri/src/watcher/cache.rs`),
the delta engine (`src-tauri/src/watcher/delta.rs`),
and the change emitter (`src-tauri/src/watcher/events.rs`).

Rust `HashMap`s are embedded as association lists with unique keys
(`mapInsert` replaces any previous binding), `HashSet`s as duplicate-free
lists.  Iteration order of a `HashMap` is unspecified in Rust, so the
embedding fixes one deterministic order; all theorems that depend on map
iteration are stated up to ordering (sets / counts).  File contents are
represented by their extraction result (the parser is an out-of-scope
collaborator: it returns the ordered list of wiki-link targets and the
ordered list of hashtags, duplicates preserved).
-/

namespace MdGraph

/-! ## Association-list maps and sets (embedding of HashMap / HashSet) -/

/-- Insert/replace a binding, as `HashMap::insert`. -/
def mapInsert {α : Type} (m : List (String × α)) (k : String) (v : α) :
    List (String × α) :=
  (k, v) :: m.filter (fun p => p.1 ≠ k)

/-- Remove a binding, as `HashMap::remove`. -/
def mapRemove {α : Type} (m : List (String × α)) (k : String) :
    List (String × α) :=
  m.filter (fun p => p.1 ≠ k)

/-- Lookup, as `HashMap::get`. -/
def mapLookup {α : Type} : List (String × α) → String → Option α
  | [], _ => none
  | p :: rest, k => if p.1 = k then some p.2 else mapLookup rest k

/-- Insert into a set, as `HashSet::insert`. -/
def setInsert (s : List String) (x : String) : List String :=
  if x ∈ s then s else x :: s

/-- Remove from a set, as `HashSet::remove`. -/
def setRemove (s : List String) (x : String) : List String :=
  s.filter (fun y => y ≠ x)

/-! ## Parsed documents (scanner + parser collaborators) -/

/-- Result of parsing a markdown file (`parser::ParsedContent`).
A document's raw text is represented by its extraction result, the
parser being an external collaborator of the specified core. -/
structure ParsedContent where
  wiki_links : List String
  hashtags : List String
deriving DecidableEq, Repr

/-- `parser::parse_markdown`: the content extractor collaborator; on the
embedded representation it returns the stored extraction result. -/
def parse_markdown (content : ParsedContent) : ParsedContent := content

/-- `scanner::MarkdownFile`. -/
structure MarkdownFile where
  path : String
  content : ParsedContent
  name : String
deriving DecidableEq, Repr

/-- A filesystem path: its display form and its `file_stem` (which is
`none` for a malformed / non-UTF8 stem). -/
structure FsPath where
  raw : String
  stem : Option String
deriving DecidableEq, Repr

/-- The observable filesystem: path → parsed content of readable files. -/
abbrev FileSystem : Type := List (FsPath × ParsedContent)

/-- Lookup a readable file by path. -/
def fsRead (fs : FileSystem) (p : FsPath) : Option ParsedContent :=
  (fs.find? (fun q => q.1 = p)).map Prod.snd

/-- `watcher::read_markdown_file`: reads the file (failing if unreadable)
and derives the name from `file_stem`, defaulting to `"unknown"`. -/
def read_markdown_file (path : FsPath) (fs : FileSystem) :
    Except String MarkdownFile :=
  match fsRead fs path with
  | none => .error ("Error reading file " ++ path.raw)
  | some content =>
      .ok { path := path.raw, content := content,
            name := path.stem.getD "unknown" }

/-! ## Graph model (`graph/mod.rs`) -/

/-- `graph::Node`. -/
structure Node where
  id : String
  label : String
  value : Nat
  group : Option String
  file_path : String
  hashtags : List String
deriving DecidableEq, Repr

/-- `graph::Edge`.  Both field names are reserved tokens here, so they
are written escaped. -/
structure Edge where
  «from» : String
  «to» : String
deriving DecidableEq, Repr

/-- `graph::GraphData`. -/
structure GraphData where
  nodes : List Node
  edges : List Edge
deriving DecidableEq, Repr

/-- Modelled from the spec: the constructor `Node::phantom`, called by the
delta engine, is not among the provided sources.  Spec §3: a Phantom node
has `label` equal to its id, empty tags, no location, and kind phantom
(`group = "phantom"`); §8 Scenario 3 shows it appearing with `value` 1. -/
def Node.phantom (id : String) : Node :=
  { id := id, label := id, value := 1, group := some "phantom",
    file_path := "", hashtags := [] }

/-- Accumulator of `build_graph`'s first pass: the edge list, the incoming
link counts, and the referenced-node map (`all_referenced_nodes`). -/
structure BuildState where
  edges : List Edge
  link_counts : List (String × Nat)
  all_referenced : List (String × Bool)
deriving Repr

/-- `file_map.contains_key` in `build_graph`. -/
def fileMapContains (files : List MarkdownFile) (name : String) : Bool :=
  files.any (fun f => f.name = name)

/-- One wiki-link occurrence in `build_graph`'s first pass: push the edge,
bump the target's incoming count, record whether the target exists. -/
def buildEdgeStep (files : List MarkdownFile) (fname : String)
    (st : BuildState) (link : String) : BuildState :=
  { edges := st.edges ++ [⟨fname, link⟩],
    link_counts :=
      mapInsert st.link_counts link
        ((mapLookup st.link_counts link).getD 0 + 1),
    all_referenced :=
      mapInsert st.all_referenced link (fileMapContains files link) }

/-- `build_graph`'s first pass: edge creation, link counting and
referenced-node tracking over the whole document list. -/
def buildPass1 (files : List MarkdownFile) : BuildState :=
  files.foldl
    (fun st file =>
      (parse_markdown file.content).wiki_links.foldl
        (buildEdgeStep files file.name) st)
    ⟨[], [], []⟩

/-- The Real node `build_graph`'s second pass emits for one document. -/
def buildNode (link_counts : List (String × Nat)) (file : MarkdownFile) :
    Node :=
  { id := file.name, label := file.name,
    value := (mapLookup link_counts file.name).getD 0,
    group := none, file_path := file.path,
    hashtags := (parse_markdown file.content).hashtags }

/-- `build_graph`'s second pass: one Real node per document, and each
document marked as existing in the referenced-node map. -/
def buildPass2 (link_counts : List (String × Nat))
    (files : List MarkdownFile)
    (init : List Node × List (String × Bool)) :
    List Node × List (String × Bool) :=
  files.foldl
    (fun acc file =>
      (acc.1 ++ [buildNode link_counts file],
       mapInsert acc.2 file.name true))
    init

/-- The Phantom node `build_graph`'s third pass emits for one
referenced-but-missing id. -/
def buildPhantom (link_counts : List (String × Nat))
    (p : String × Bool) : Node :=
  { id := p.1, label := p.1,
    value := (mapLookup link_counts p.1).getD 0,
    group := some "phantom", file_path := "",
    hashtags := ([] : List String) }

/-- `graph::build_graph`, three passes over the document list. -/
def build_graph (files : List MarkdownFile) : GraphData :=
  let st := buildPass1 files
  let pass2 := buildPass2 st.link_counts files ([], st.all_referenced)
  let phantomNodes :=
    (pass2.2.filter (fun p => !p.2)).map (buildPhantom st.link_counts)
  { nodes := pass2.1 ++ phantomNodes, edges := st.edges }

/-! ## Reference index (`watcher/cache.rs`) -/

/-- `watcher::cache::GraphCache`. -/
structure GraphCache where
  files : List (String × String)
  links : List (String × List String)
  hashtags : List (String × List String)
  phantoms : List String
deriving DecidableEq, Repr

namespace GraphCache

/-- `GraphCache::new`. -/
def new : GraphCache := ⟨[], [], [], []⟩

/-- `GraphCache::has_file_by_path`. -/
def has_file_by_path (c : GraphCache) (path : FsPath) : Bool :=
  (mapLookup c.files (path.stem.getD "")).isSome

/-- `GraphCache::node_exists`. -/
def node_exists (c : GraphCache) (id : String) : Bool :=
  (mapLookup c.files id).isSome

/-- `GraphCache::is_phantom`. -/
def is_phantom (c : GraphCache) (id : String) : Bool :=
  decide (id ∈ c.phantoms)

/-- `GraphCache::get_links`. -/
def get_links (c : GraphCache) (file_name : String) : List String :=
  (mapLookup c.links file_name).getD []

/-- `GraphCache::count_incoming_links`: iterates through all stored link
lists and counts those that contain the target. -/
def count_incoming_links (c : GraphCache) (target : String) : Nat :=
  ((c.links.map Prod.snd).filter (fun links => decide (target ∈ links))).length

/-- `GraphCache::add_file`. -/
def add_file (c : GraphCache) (name : String) (path : String)
    (links : List String) (tags : List String) : GraphCache :=
  { files := mapInsert c.files name path,
    links := mapInsert c.links name links,
    hashtags := mapInsert c.hashtags name tags,
    phantoms := setRemove c.phantoms name }

/-- `GraphCache::update_links`. -/
def update_links (c : GraphCache) (name : String) (links : List String) :
    GraphCache :=
  { c with links := mapInsert c.links name links }

/-- `GraphCache::update_hashtags`. -/
def update_hashtags (c : GraphCache) (name : String) (tags : List String) :
    GraphCache :=
  { c with hashtags := mapInsert c.hashtags name tags }

/-- `GraphCache::remove_file`. -/
def remove_file (c : GraphCache) (name : String) : GraphCache :=
  { c with files := mapRemove c.files name,
           links := mapRemove c.links name,
           hashtags := mapRemove c.hashtags name }

/-- `GraphCache::add_phantom`. -/
def add_phantom (c : GraphCache) (id : String) : GraphCache :=
  { c with phantoms := setInsert c.phantoms id }

/-- `GraphCache::remove_phantom`. -/
def remove_phantom (c : GraphCache) (id : String) : GraphCache :=
  { c with phantoms := setRemove c.phantoms id }

end GraphCache

/-! ## Delta engine (`watcher/delta.rs`) -/

/-- `delta::GraphDelta`. -/
structure GraphDelta where
  nodes_added : List Node := []
  nodes_removed : List String := []
  nodes_updated : List Node := []
  edges_added : List Edge := []
  edges_removed : List Edge := []
deriving DecidableEq, Repr

namespace GraphDelta

/-- `GraphDelta::is_empty`. -/
def is_empty (d : GraphDelta) : Bool :=
  d.nodes_added.isEmpty && d.nodes_removed.isEmpty &&
  d.nodes_updated.isEmpty && d.edges_added.isEmpty &&
  d.edges_removed.isEmpty

end GraphDelta

/-- The body of the wiki-link loop shared by `handle_file_created` and the
added-links loop of `handle_file_modified`: push the edge, and create a
phantom node when the target is neither a document nor already phantom. -/
def addLinkStep (fname : String) (acc : GraphDelta × GraphCache)
    (link : String) : GraphDelta × GraphCache :=
  let delta := { acc.1 with
    edges_added := acc.1.edges_added ++ [⟨fname, link⟩] }
  if !acc.2.node_exists link && !acc.2.is_phantom link then
    ({ delta with nodes_added := delta.nodes_added ++ [Node.phantom link] },
     acc.2.add_phantom link)
  else
    (delta, acc.2)

/-- The body of the removed-links loop shared by `handle_file_modified`
and `handle_file_deleted`: push the removed edge, and if the target is a
phantom whose remaining incoming count is at most 1, retire the phantom. -/
def removeLinkStep (fname : String) (acc : GraphDelta × GraphCache)
    (link : String) : GraphDelta × GraphCache :=
  let delta := { acc.1 with
    edges_removed := acc.1.edges_removed ++ [⟨fname, link⟩] }
  if acc.2.is_phantom link then
    if acc.2.count_incoming_links link ≤ 1 then
      ({ delta with nodes_removed := delta.nodes_removed ++ [link] },
       acc.2.remove_phantom link)
    else
      (delta, acc.2)
  else
    (delta, acc.2)

/-- `delta::handle_file_created`.  The Rust handler mutates the cache in
place; the embedding threads the cache and pairs the `Result` with the
cache state at return (unchanged on the error exit). -/
def handle_file_created (path : FsPath) (fs : FileSystem)
    (cache : GraphCache) : Except String GraphDelta × GraphCache :=
  match read_markdown_file path fs with
  | .error e => (.error e, cache)
  | .ok file =>
      let parsed := parse_markdown file.content
      let (removed0, cache) :=
        if cache.is_phantom file.name then
          ([file.name], cache.remove_phantom file.name)
        else
          ([], cache)
      let incoming_links := cache.count_incoming_links file.name
      let node : Node :=
        { id := file.name, label := file.name, value := incoming_links,
          group := none, file_path := path.raw,
          hashtags := parsed.hashtags }
      let init : GraphDelta × GraphCache :=
        ({ nodes_added := [node], nodes_removed := removed0 }, cache)
      let (delta, cache) :=
        parsed.wiki_links.foldl (addLinkStep file.name) init
      let cache :=
        cache.add_file file.name path.raw parsed.wiki_links parsed.hashtags
      (.ok delta, cache)

/-- The `HashSet<String>` equality test of `handle_file_modified`: the old
and new link collections contain the same elements. -/
def sameLinkSet (old new : List String) : Bool :=
  old.all (fun l => decide (l ∈ new)) && new.all (fun l => decide (l ∈ old))

/-- `old.difference(&new)` on the embedded `HashSet`s: each element of
`old` once, and not in `new`.  A `HashSet` iterates in an unspecified
order; the embedding fixes one. -/
def setDifference (old new : List String) : List String :=
  old.dedup.filter (fun l => decide (l ∉ new))

/-- `delta::handle_file_modified`. -/
def handle_file_modified (path : FsPath) (fs : FileSystem)
    (cache : GraphCache) : Except String GraphDelta × GraphCache :=
  match read_markdown_file path fs with
  | .error e => (.error e, cache)
  | .ok file =>
      let parsed := parse_markdown file.content
      let old_links := cache.get_links file.name
      let new_links := parsed.wiki_links
      if sameLinkSet old_links new_links then
        (.ok {}, cache)
      else
        let (delta, cache) :=
          (setDifference old_links new_links).foldl
            (removeLinkStep file.name) ({}, cache)
        let (delta, cache) :=
          (setDifference new_links old_links).foldl
            (addLinkStep file.name) (delta, cache)
        let cache := cache.update_links file.name parsed.wiki_links
        (.ok delta, cache)

/-- `delta::handle_file_deleted`. -/
def handle_file_deleted (path : FsPath) (cache : GraphCache) :
    Except String GraphDelta × GraphCache :=
  match path.stem with
  | none => (.error ("Invalid file name: " ++ path.raw), cache)
  | some file_name =>
      let (delta, cache) :=
        (cache.get_links file_name).foldl
          (removeLinkStep file_name) ({}, cache)
      let incoming_links := cache.count_incoming_links file_name
      let (delta, cache) :=
        if incoming_links > 0 then
          ({ delta with
              nodes_removed := delta.nodes_removed ++ [file_name],
              nodes_added := delta.nodes_added ++ [Node.phantom file_name] },
           cache.add_phantom file_name)
        else
          ({ delta with
              nodes_removed := delta.nodes_removed ++ [file_name] },
           cache)
      let cache := cache.remove_file file_name
      (.ok delta, cache)

/-! ## Change emitter (`watcher/events.rs`) -/

/-- `events::GraphDeltaEvent`. -/
inductive GraphDeltaEvent where
  | nodeAdded (node : Node)
  | nodeRemoved (node_id : String)
  | nodeUpdated (node : Node)
  | edgeAdded (edge : Edge)
  | edgeRemoved (edge : Edge)
deriving DecidableEq, Repr

/-- `events::emit_delta`: the ordered sequence of events published for a
delta, one event per list entry, loops in source order. -/
def emit_delta (delta : GraphDelta) : List GraphDeltaEvent :=
  let out : List GraphDeltaEvent :=
    delta.nodes_removed.foldl
      (fun out node_id => out ++ [.nodeRemoved node_id]) []
  let out :=
    delta.edges_removed.foldl (fun out edge => out ++ [.edgeRemoved edge]) out
  let out :=
    delta.nodes_added.foldl (fun out node => out ++ [.nodeAdded node]) out
  let out :=
    delta.nodes_updated.foldl (fun out node => out ++ [.nodeUpdated node]) out
  let out :=
    delta.edges_added.foldl (fun out edge => out ++ [.edgeAdded edge]) out
  out

/-- The delta dispatch of `watcher::process_events`: an error is logged
and skipped, a non-empty delta is emitted, an empty delta is not. -/
def processDeltaResult (r : Except String GraphDelta) :
    List GraphDeltaEvent :=
  match r with
  | .ok delta => if delta.is_empty then [] else emit_delta delta
  | .error _ => []

/-! ## Event traces over a document corpus

The watch pipeline classifies each debounced path event against the disk
and the index (`watcher::process_events`): an existing file with no index
entry is a create, with an entry a modify, a vanished file a delete.
Documents are identified by their stem name; the corpus below models the
directory as a stem-keyed document collection. -/

/-- The path of the document named `name`. -/
def pathOf (name : String) : FsPath := ⟨name ++ ".md", some name⟩

/-- The watched directory: document name → parsed content. -/
abbrev Corpus : Type := List (String × ParsedContent)

/-- The filesystem view of a corpus. -/
def corpusFs (fsC : Corpus) : FileSystem :=
  fsC.map (fun p => (pathOf p.1, p.2))

/-- The scanner's view of a corpus: the document list a full rescan
feeds to `build_graph`. -/
def corpusFiles (fsC : Corpus) : List MarkdownFile :=
  fsC.map (fun p => ⟨(pathOf p.1).raw, p.2, p.1⟩)

/-- One classified filesystem event. -/
inductive DocEvent where
  | create (name : String) (content : ParsedContent)
  | modify (name : String) (content : ParsedContent)
  | delete (name : String)
deriving DecidableEq, Repr

/-- Apply one event: update the directory, then run the corresponding
delta-engine handler against the index. -/
def applyEvent (s : Corpus × GraphCache) (ev : DocEvent) :
    Corpus × GraphCache :=
  match ev with
  | .create name content =>
      let fsC := mapInsert s.1 name content
      (fsC, (handle_file_created (pathOf name) (corpusFs fsC) s.2).2)
  | .modify name content =>
      let fsC := mapInsert s.1 name content
      (fsC, (handle_file_modified (pathOf name) (corpusFs fsC) s.2).2)
  | .delete name =>
      (mapRemove s.1 name, (handle_file_deleted (pathOf name) s.2).2)

/-- The pipeline's classification discipline: a create concerns an id
with no document entry, a modify and a delete an id with one.  A delete
additionally concerns a document that does not reference itself: the
handler counts the deleted document's own stored self-references
(`count_incoming_links` scans every stored list including the deleted
document's own), which is the divergence recorded against C3/C4. -/
def eventOk (s : Corpus × GraphCache) : DocEvent → Bool
  | .create name _ => !(s.2.node_exists name)
  | .modify name _ => s.2.node_exists name
  | .delete name =>
      s.2.node_exists name && !(decide (name ∈ s.2.get_links name))

/-- Every event of the trace is admissible in the state it meets. -/
def validTrace : (Corpus × GraphCache) → List DocEvent → Bool
  | _, [] => true
  | s, ev :: rest => eventOk s ev && validTrace (applyEvent s ev) rest

/-- Consistency of an index with the directory it mirrors (spec §3
invariants, with the stored outgoing lists agreeing with the documents
as sets): unique keys; documents, stored link lists and directory
entries share one id set; each stored list has the same element set as
the document's parsed references; the phantom set is exactly the set of
referenced ids with no document. -/
def cacheConsistent (s : Corpus × GraphCache) : Bool :=
  decide (s.1.map Prod.fst).Nodup &&
  decide (s.2.files.map Prod.fst).Nodup &&
  decide (s.2.links.map Prod.fst).Nodup &&
  decide s.2.phantoms.Nodup &&
  s.1.all (fun p => s.2.node_exists p.1) &&
  s.2.files.all (fun p => (mapLookup s.1 p.1).isSome) &&
  s.2.links.all (fun p => s.2.node_exists p.1) &&
  s.2.files.all (fun p => (mapLookup s.2.links p.1).isSome) &&
  s.1.all (fun p => sameLinkSet (s.2.get_links p.1) p.2.wiki_links) &&
  s.2.phantoms.all (fun x =>
    !(s.2.node_exists x) && s.2.links.any (fun p => decide (x ∈ p.2))) &&
  s.2.links.all (fun p =>
    p.2.all (fun l => s.2.node_exists l || decide (l ∈ s.2.phantoms)))

/-! ## Specification-side derived views

Definitions below render the spec's words, for comparison with the
code-derived definitions above. -/

/-- From the spec: the number of times the target id appears across all
stored outgoing lists, counted with multiplicity. -/
def linkOccurrenceTotal (c : GraphCache) (target : String) : Nat :=
  ((c.links.map Prod.snd).map (fun links => links.count target)).sum

/-- From the spec: the ids of the stored documents whose current
outgoing list contains the target. -/
def docsLinkingTo (c : GraphCache) (target : String) : List String :=
  (c.links.map Prod.fst).filter (fun n => decide (target ∈ c.get_links n))

/-- From the spec (§4.3 delete, step 3): the incoming-reference count
for an id computed from the other documents' stored outgoing lists,
the document's own stored self-references not counting. -/
def incomingFromOthers (c : GraphCache) (id : String) : Nat :=
  (((c.links.filter (fun p => p.1 ≠ id)).map Prod.snd).filter
    (fun links => decide (id ∈ links))).length

/-- Ids of the Real nodes of a snapshot. -/
def realIds (g : GraphData) : List String :=
  (g.nodes.filter (fun n => n.group = none)).map (fun n => n.id)

/-- Ids of the Phantom nodes of a snapshot. -/
def phantomIds (g : GraphData) : List String :=
  (g.nodes.filter (fun n => n.group = some "phantom")).map (fun n => n.id)

/-- From the spec (§8 rescan equivalence): the edges of the graph
derived directly from the live index, one per stored reference
occurrence. -/
def cacheEdges (c : GraphCache) : List Edge :=
  c.links.foldr (fun p acc => p.2.map (fun l => ⟨p.1, l⟩) ++ acc) []

/-! ## Association map lemmas -/

theorem mapLookup_filter_ne {α : Type} (m : List (String × α))
    (k k' : String) (h : k' ≠ k) :
    mapLookup (m.filter (fun p => p.1 ≠ k)) k' = mapLookup m k' := by
  induction m with
  | nil => rfl
  | cons p rest ih =>
      by_cases hp : p.1 = k
      · rw [List.filter_cons, if_neg (by simp [hp])]
        have h2 : mapLookup (p :: rest) k' = mapLookup rest k' := by
          simp only [mapLookup]
          rw [if_neg (by rw [hp]; exact fun hh => h hh.symm)]
        rw [h2]
        exact ih
      · rw [List.filter_cons, if_pos (by simp [hp])]
        simp only [mapLookup]
        by_cases hk : p.1 = k'
        · rw [if_pos hk, if_pos hk]
        · rw [if_neg hk, if_neg hk]
          exact ih

theorem mapLookup_insert {α : Type} (m : List (String × α))
    (k k' : String) (v : α) :
    mapLookup (mapInsert m k v) k' =
      if k' = k then some v else mapLookup m k' := by
  by_cases h : k' = k
  · subst h; simp [mapInsert, mapLookup]
  · rw [if_neg h]
    simp only [mapInsert, mapLookup]
    rw [if_neg (fun hh => h hh.symm)]
    exact mapLookup_filter_ne m k k' h

theorem mapLookup_remove {α : Type} (m : List (String × α))
    (k k' : String) :
    mapLookup (mapRemove m k) k' =
      if k' = k then none else mapLookup m k' := by
  by_cases h : k' = k
  · subst h
    rw [if_pos rfl]
    induction m with
    | nil => rfl
    | cons p rest ih =>
        by_cases hp : p.1 = k'
        · simpa [mapRemove, List.filter_cons, hp] using ih
        · simpa [mapRemove, List.filter_cons, hp, mapLookup] using ih
  · rw [if_neg h]; exact mapLookup_filter_ne m k k' h

theorem mapLookup_isSome_iff {α : Type} (m : List (String × α))
    (k : String) :
    (mapLookup m k).isSome = true ↔ k ∈ m.map Prod.fst := by
  induction m with
  | nil => simp [mapLookup]
  | cons p rest ih =>
      by_cases hp : p.1 = k
      · simp [mapLookup, hp]
      · simp only [mapLookup, if_neg hp, List.map_cons, List.mem_cons]
        rw [ih]
        constructor
        · exact Or.inr
        · rintro (h | h)
          · exact absurd h.symm hp
          · exact h

theorem mapLookup_eq_none_iff {α : Type} (m : List (String × α))
    (k : String) :
    mapLookup m k = none ↔ k ∉ m.map Prod.fst := by
  rw [← mapLookup_isSome_iff]
  cases mapLookup m k <;> simp

theorem mapLookup_mem {α : Type} {m : List (String × α)} {k : String}
    {v : α} (h : mapLookup m k = some v) : (k, v) ∈ m := by
  induction m with
  | nil => exact absurd h (by simp [mapLookup])
  | cons p rest ih =>
      by_cases hp : p.1 = k
      · simp only [mapLookup, if_pos hp] at h
        have hv : p.2 = v := by injection h
        have hpk : p = (k, v) := by
          calc p = (p.1, p.2) := rfl
          _ = (k, v) := by rw [hp, hv]
        rw [← hpk]
        exact List.mem_cons_self p rest
      · simp only [mapLookup, if_neg hp] at h
        exact List.mem_cons_of_mem _ (ih h)

theorem mem_mapLookup {α : Type} {m : List (String × α)} {k : String}
    {v : α} (hnd : (m.map Prod.fst).Nodup) (h : (k, v) ∈ m) :
    mapLookup m k = some v := by
  induction m with
  | nil => cases h
  | cons p rest ih =>
      simp only [List.map_cons, List.nodup_cons] at hnd
      rcases List.mem_cons.mp h with h | h
      · subst h; simp [mapLookup]
      · have hne : p.1 ≠ k := by
          intro hh
          exact hnd.1 (hh ▸ (List.mem_map.mpr ⟨(k, v), h, rfl⟩))
        simp only [mapLookup, if_neg hne]
        exact ih hnd.2 h

theorem map_fst_filter_ne {α : Type} (m : List (String × α)) (k : String) :
    (m.filter (fun p => p.1 ≠ k)).map Prod.fst =
      (m.map Prod.fst).filter (fun x => x ≠ k) := by
  induction m with
  | nil => rfl
  | cons p rest ih =>
      by_cases hp : p.1 = k
      · rw [List.filter_cons, if_neg (by simp [hp]), List.map_cons,
          List.filter_cons, if_neg (by simp [hp])]
        exact ih
      · rw [List.filter_cons, if_pos (by simp [hp]), List.map_cons,
          List.map_cons, List.filter_cons, if_pos (by simp [hp]), ih]

theorem mem_keys_insert {α : Type} (m : List (String × α))
    (k x : String) (v : α) :
    x ∈ (mapInsert m k v).map Prod.fst ↔ x = k ∨ x ∈ m.map Prod.fst := by
  simp only [mapInsert, List.map_cons, List.mem_cons, map_fst_filter_ne,
    List.mem_filter]
  constructor
  · rintro (h | ⟨h, _⟩)
    · exact Or.inl h
    · exact Or.inr h
  · rintro (h | h)
    · exact Or.inl h
    · by_cases hx : x = k
      · exact Or.inl hx
      · exact Or.inr ⟨h, by simp [hx]⟩

theorem nodup_keys_insert {α : Type} (m : List (String × α))
    (k : String) (v : α) (hnd : (m.map Prod.fst).Nodup) :
    ((mapInsert m k v).map Prod.fst).Nodup := by
  simp only [mapInsert, List.map_cons, List.nodup_cons, map_fst_filter_ne]
  refine ⟨?_, hnd.filter _⟩
  intro hmem
  exact absurd (List.of_mem_filter hmem) (by simp)

theorem mem_keys_remove {α : Type} (m : List (String × α))
    (k x : String) :
    x ∈ (mapRemove m k).map Prod.fst ↔ x ∈ m.map Prod.fst ∧ x ≠ k := by
  simp [mapRemove, map_fst_filter_ne, List.mem_filter]

theorem nodup_keys_remove {α : Type} (m : List (String × α))
    (k : String) (hnd : (m.map Prod.fst).Nodup) :
    ((mapRemove m k).map Prod.fst).Nodup := by
  rw [mapRemove, map_fst_filter_ne]
  exact hnd.filter _

theorem mem_setInsert (s : List String) (x y : String) :
    y ∈ setInsert s x ↔ y = x ∨ y ∈ s := by
  by_cases h : x ∈ s
  · simp only [setInsert, if_pos h]
    constructor
    · exact Or.inr
    · rintro (rfl | hy)
      · exact h
      · exact hy
  · simp [setInsert, if_neg h]

theorem nodup_setInsert (s : List String) (x : String) (h : s.Nodup) :
    (setInsert s x).Nodup := by
  by_cases hx : x ∈ s
  · simpa [setInsert, hx] using h
  · rw [setInsert, if_neg hx]
    exact List.nodup_cons.mpr ⟨hx, h⟩

theorem mem_setRemove (s : List String) (x y : String) :
    y ∈ setRemove s x ↔ y ∈ s ∧ y ≠ x := by
  simp [setRemove, List.mem_filter]

theorem nodup_setRemove (s : List String) (x : String) (h : s.Nodup) :
    (setRemove s x).Nodup := h.filter _

theorem mem_setDifference (old new : List String) (x : String) :
    x ∈ setDifference old new ↔ x ∈ old ∧ x ∉ new := by
  simp [setDifference, List.mem_filter, List.mem_dedup]

theorem nodup_setDifference (old new : List String) :
    (setDifference old new).Nodup :=
  (List.nodup_dedup old).filter _

theorem lookup_of_mem {α : Type} {m : List (String × α)}
    {p : String × α} (hnd : (m.map Prod.fst).Nodup) (h : p ∈ m) :
    mapLookup m p.1 = some p.2 :=
  mem_mapLookup hnd h

/-! ## Counting lemmas for the reference scan -/

theorem count_incoming_links_eq_countP (c : GraphCache) (x : String) :
    c.count_incoming_links x = c.links.countP (fun p => decide (x ∈ p.2)) := by
  rw [GraphCache.count_incoming_links, ← List.countP_eq_length_filter,
    List.countP_map]
  rfl

theorem two_le_countP {α : Type} {l : List α} {p : α → Bool} {a b : α}
    (ha : a ∈ l) (hb : b ∈ l) (hab : a ≠ b)
    (hpa : p a = true) (hpb : p b = true) : 2 ≤ l.countP p := by
  induction l with
  | nil => cases ha
  | cons c t ih =>
      rcases List.mem_cons.mp ha with rfl | ha'
      · have hbt : b ∈ t := by
          rcases List.mem_cons.mp hb with rfl | hb'
          · exact absurd rfl hab
          · exact hb'
        rw [List.countP_cons_of_pos _ _ hpa]
        have : 0 < t.countP p := List.countP_pos.mpr ⟨b, hbt, hpb⟩
        omega
      · rcases List.mem_cons.mp hb with rfl | hb'
        · rw [List.countP_cons_of_pos _ _ hpb]
          have : 0 < t.countP p := List.countP_pos.mpr ⟨a, ha', hpa⟩
          omega
        · have h2 := ih ha' hb'
          rw [List.countP_cons]
          omega

theorem length_le_one_of_nodup_map_const {α β : Type} {l : List α}
    {f : α → β} {y : β} (hnd : (l.map f).Nodup)
    (hc : ∀ a ∈ l, f a = y) : l.length ≤ 1 := by
  match l with
  | [] => simp
  | [a] => simp
  | a :: b :: t =>
      exfalso
      simp only [List.map_cons, List.nodup_cons, List.mem_cons] at hnd
      exact hnd.1 (Or.inl (by
        rw [hc a (by simp), hc b (by simp)]))

theorem countP_le_one_of_unique_key {α : Type} {m : List (String × α)}
    {p : String × α → Bool} {n : String}
    (hnd : (m.map Prod.fst).Nodup)
    (h : ∀ q ∈ m, p q = true → q.1 = n) : m.countP p ≤ 1 := by
  rw [List.countP_eq_length_filter]
  refine length_le_one_of_nodup_map_const (y := n)
    (((m.filter_sublist).map Prod.fst).nodup hnd) ?_
  intro a ha
  exact h a (List.mem_of_mem_filter ha) (List.of_mem_filter ha)

theorem unique_referencer {c : GraphCache} {n x : String}
    {ls : List String}
    (hmem : (n, ls) ∈ c.links) (hx : x ∈ ls)
    (hcnt : c.count_incoming_links x ≤ 1) :
    ∀ p ∈ c.links, x ∈ p.2 → p.1 = n := by
  intro p hp hxp
  by_contra hne
  have hab : (n, ls) ≠ p := by
    intro hh
    exact hne (by rw [← hh])
  have h2 : 2 ≤ c.links.countP (fun q => decide (x ∈ q.2)) :=
    two_le_countP hmem hp hab (by simpa using hx) (by simpa using hxp)
  rw [count_incoming_links_eq_countP] at hcnt
  omega

theorem exists_other_referencer {c : GraphCache} {n x : String}
    (hnd : (c.links.map Prod.fst).Nodup)
    (hcnt : 1 < c.count_incoming_links x) :
    ∃ p ∈ c.links, p.1 ≠ n ∧ x ∈ p.2 := by
  by_contra hno
  push_neg at hno
  have hall : ∀ q ∈ c.links, (fun q => decide (x ∈ q.2)) q = true → q.1 = n := by
    intro q hq hxq
    by_contra hqn
    exact (hno q hq hqn) (by simpa using hxq)
  have hle := countP_le_one_of_unique_key hnd hall
  rw [count_incoming_links_eq_countP] at hcnt
  omega

theorem referencer_of_count_pos {c : GraphCache} {x : String}
    (hcnt : 0 < c.count_incoming_links x) :
    ∃ p ∈ c.links, x ∈ p.2 := by
  rw [count_incoming_links_eq_countP] at hcnt
  rcases List.countP_pos.mp hcnt with ⟨p, hp, hxp⟩
  exact ⟨p, hp, by simpa using hxp⟩

theorem count_pos_of_referencer {c : GraphCache} {x : String}
    {p : String × List String} (hp : p ∈ c.links) (hxp : x ∈ p.2) :
    0 < c.count_incoming_links x := by
  rw [count_incoming_links_eq_countP]
  exact List.countP_pos.mpr ⟨p, hp, by simpa using hxp⟩

/-! ## Change-emitter ordering (claim C7) -/

theorem foldl_push_map {α β : Type} (f : α → β) (l : List α)
    (acc : List β) :
    l.foldl (fun out x => out ++ [f x]) acc = acc ++ l.map f := by
  induction l generalizing acc with
  | nil => simp
  | cons x t ih => simp [ih]

/-- C7: the emitted event sequence for a delta is exactly the
concatenation node-removed ++ edge-removed ++ node-added ++
node-updated ++ edge-added, each group in the delta's list order. -/
theorem emit_delta_order (delta : GraphDelta) :
    emit_delta delta =
      delta.nodes_removed.map GraphDeltaEvent.nodeRemoved ++
      delta.edges_removed.map GraphDeltaEvent.edgeRemoved ++
      delta.nodes_added.map GraphDeltaEvent.nodeAdded ++
      delta.nodes_updated.map GraphDeltaEvent.nodeUpdated ++
      delta.edges_added.map GraphDeltaEvent.edgeAdded := by
  simp [emit_delta, foldl_push_map]

/-! ## Effect of the per-link loop bodies -/

theorem node_exists_congr {c c' : GraphCache} (h : c'.files = c.files)
    (x : String) : c'.node_exists x = c.node_exists x := by
  rw [GraphCache.node_exists, GraphCache.node_exists, h]

theorem count_congr {c c' : GraphCache} (h : c'.links = c.links)
    (x : String) : c'.count_incoming_links x = c.count_incoming_links x := by
  rw [GraphCache.count_incoming_links, GraphCache.count_incoming_links, h]

theorem addLinkStep_cache (n : String) (acc : GraphDelta × GraphCache)
    (l : String) :
    ((addLinkStep n acc l).2).files = acc.2.files ∧
    ((addLinkStep n acc l).2).links = acc.2.links ∧
    ((addLinkStep n acc l).2).hashtags = acc.2.hashtags := by
  by_cases hb : (!acc.2.node_exists l && !acc.2.is_phantom l) = true <;>
    simp [addLinkStep, hb, GraphCache.add_phantom]

theorem addLinkStep_phantoms_mem (n : String) (acc : GraphDelta × GraphCache)
    (l x : String) :
    (x ∈ ((addLinkStep n acc l).2).phantoms ↔
      x ∈ acc.2.phantoms ∨ (x = l ∧ acc.2.node_exists l = false)) := by
  by_cases hex : acc.2.node_exists l = true
  · simp [addLinkStep, hex]
  · have hex' : acc.2.node_exists l = false := Bool.not_eq_true _ ▸ hex
    by_cases hph : l ∈ acc.2.phantoms
    · have hph' : acc.2.is_phantom l = true := by
        simp [GraphCache.is_phantom, hph]
      simp only [addLinkStep, hex', hph', Bool.not_false, Bool.not_true,
        Bool.true_and, Bool.false_eq_true, if_false, and_true]
      constructor
      · exact fun h => Or.inl h
      · rintro (h | rfl)
        · exact h
        · exact hph
    · have hph' : acc.2.is_phantom l = false := by
        simp [GraphCache.is_phantom, hph]
      simp only [addLinkStep, hex', hph', Bool.not_false, Bool.true_and,
        if_true, GraphCache.add_phantom, and_true]
      rw [mem_setInsert]
      exact or_comm

theorem removeLinkStep_cache (n : String) (acc : GraphDelta × GraphCache)
    (l : String) :
    ((removeLinkStep n acc l).2).files = acc.2.files ∧
    ((removeLinkStep n acc l).2).links = acc.2.links ∧
    ((removeLinkStep n acc l).2).hashtags = acc.2.hashtags := by
  by_cases hph : acc.2.is_phantom l = true
  · by_cases hc : acc.2.count_incoming_links l ≤ 1 <;>
      simp [removeLinkStep, hph, hc, GraphCache.remove_phantom]
  · simp [removeLinkStep, hph]

theorem removeLinkStep_phantoms_mem (n : String)
    (acc : GraphDelta × GraphCache) (l x : String) :
    (x ∈ ((removeLinkStep n acc l).2).phantoms ↔
      x ∈ acc.2.phantoms ∧
        ¬(x = l ∧ acc.2.count_incoming_links l ≤ 1)) := by
  by_cases hph : acc.2.is_phantom l = true
  · by_cases hc : acc.2.count_incoming_links l ≤ 1
    · simp only [removeLinkStep]
      rw [if_pos hph, if_pos hc]
      simp only [GraphCache.remove_phantom]
      rw [mem_setRemove]
      constructor
      · rintro ⟨h1, h2⟩
        exact ⟨h1, fun hh => h2 hh.1⟩
      · rintro ⟨h1, h2⟩
        exact ⟨h1, fun hh => h2 ⟨hh, hc⟩⟩
    · simp only [removeLinkStep]
      rw [if_pos hph, if_neg hc]
      constructor
      · exact fun h => ⟨h, fun hh => hc hh.2⟩
      · exact fun h => h.1
  · have hnm : l ∉ acc.2.phantoms := by
      simpa [GraphCache.is_phantom] using hph
    simp only [removeLinkStep]
    rw [if_neg hph]
    constructor
    · intro h
      refine ⟨h, ?_⟩
      rintro ⟨rfl, _⟩
      exact hnm h
    · exact fun h => h.1

theorem addLink_fold_cache (n : String) (ls : List String)
    (d : GraphDelta) (c : GraphCache) :
    (((ls.foldl (addLinkStep n) (d, c)).2).files = c.files ∧
     ((ls.foldl (addLinkStep n) (d, c)).2).links = c.links ∧
     ((ls.foldl (addLinkStep n) (d, c)).2).hashtags = c.hashtags) := by
  induction ls generalizing d c with
  | nil => exact ⟨rfl, rfl, rfl⟩
  | cons l t ih =>
      rw [List.foldl_cons]
      rcases hs : addLinkStep n (d, c) l with ⟨d', c'⟩
      have hstep := addLinkStep_cache n (d, c) l
      rw [hs] at hstep
      have hrec := ih d' c'
      exact ⟨hrec.1.trans hstep.1, (hrec.2.1).trans hstep.2.1,
        (hrec.2.2).trans hstep.2.2⟩

theorem removeLink_fold_cache (n : String) (ls : List String)
    (d : GraphDelta) (c : GraphCache) :
    (((ls.foldl (removeLinkStep n) (d, c)).2).files = c.files ∧
     ((ls.foldl (removeLinkStep n) (d, c)).2).links = c.links ∧
     ((ls.foldl (removeLinkStep n) (d, c)).2).hashtags = c.hashtags) := by
  induction ls generalizing d c with
  | nil => exact ⟨rfl, rfl, rfl⟩
  | cons l t ih =>
      rw [List.foldl_cons]
      rcases hs : removeLinkStep n (d, c) l with ⟨d', c'⟩
      have hstep := removeLinkStep_cache n (d, c) l
      rw [hs] at hstep
      have hrec := ih d' c'
      exact ⟨hrec.1.trans hstep.1, (hrec.2.1).trans hstep.2.1,
        (hrec.2.2).trans hstep.2.2⟩

theorem addLink_fold_phantoms_mem (n : String) (ls : List String)
    (d : GraphDelta) (c : GraphCache) (x : String) :
    (x ∈ ((ls.foldl (addLinkStep n) (d, c)).2).phantoms ↔
      x ∈ c.phantoms ∨ (x ∈ ls ∧ c.node_exists x = false)) := by
  induction ls generalizing d c with
  | nil => simp
  | cons l t ih =>
      rw [List.foldl_cons]
      rcases hs : addLinkStep n (d, c) l with ⟨d', c'⟩
      have hstep := addLinkStep_phantoms_mem n (d, c) l x
      have hfields := addLinkStep_cache n (d, c) l
      rw [hs] at hstep hfields
      have hex := node_exists_congr hfields.1
      rw [ih d' c']
      constructor
      · rintro (hph | ⟨hmem, hexf⟩)
        · rcases hstep.mp hph with h | ⟨hxl, hl⟩
          · exact Or.inl h
          · refine Or.inr ⟨by rw [hxl]; exact List.mem_cons_self l t, ?_⟩
            rw [hxl]
            exact hl
        · rw [hex x] at hexf
          exact Or.inr ⟨List.mem_cons_of_mem l hmem, hexf⟩
      · rintro (hph | ⟨hmem, hexf⟩)
        · exact Or.inl (hstep.mpr (Or.inl hph))
        · rcases List.mem_cons.mp hmem with rfl | hmem'
          · exact Or.inl (hstep.mpr (Or.inr ⟨rfl, hexf⟩))
          · exact Or.inr ⟨hmem', by rw [hex x]; exact hexf⟩

theorem removeLink_fold_phantoms_mem (n : String) (ls : List String)
    (d : GraphDelta) (c : GraphCache) (x : String) :
    (x ∈ ((ls.foldl (removeLinkStep n) (d, c)).2).phantoms ↔
      x ∈ c.phantoms ∧
        ¬(x ∈ ls ∧ c.count_incoming_links x ≤ 1)) := by
  induction ls generalizing d c with
  | nil => simp
  | cons l t ih =>
      rw [List.foldl_cons]
      rcases hs : removeLinkStep n (d, c) l with ⟨d', c'⟩
      have hstep := removeLinkStep_phantoms_mem n (d, c) l x
      have hfields := removeLinkStep_cache n (d, c) l
      rw [hs] at hstep hfields
      have hcnt := count_congr hfields.2.1
      rw [ih d' c']
      constructor
      · rintro ⟨hph, hrest⟩
        rcases hstep.mp hph with ⟨hph0, hnl⟩
        refine ⟨hph0, ?_⟩
        rintro ⟨hmem, hle⟩
        rcases List.mem_cons.mp hmem with rfl | hmem'
        · exact hnl ⟨rfl, hle⟩
        · exact hrest ⟨hmem', by rw [hcnt x]; exact hle⟩
      · rintro ⟨hph0, hrest⟩
        refine ⟨hstep.mpr ⟨hph0, ?_⟩, ?_⟩
        · rintro ⟨hxl, hle⟩
          refine hrest ⟨by rw [hxl]; exact List.mem_cons_self l t, ?_⟩
          rw [hxl]
          exact hle
        · rintro ⟨hmem, hle⟩
          rw [hcnt x] at hle
          exact hrest ⟨List.mem_cons_of_mem l hmem, hle⟩

theorem addLinkStep_phantoms_nodup (n : String)
    (acc : GraphDelta × GraphCache) (l : String)
    (h : acc.2.phantoms.Nodup) :
    ((addLinkStep n acc l).2).phantoms.Nodup := by
  by_cases hb : (!acc.2.node_exists l && !acc.2.is_phantom l) = true
  · simp only [addLinkStep]
    rw [if_pos hb]
    exact nodup_setInsert _ _ h
  · simp only [addLinkStep]
    rw [if_neg hb]
    exact h

theorem removeLinkStep_phantoms_nodup (n : String)
    (acc : GraphDelta × GraphCache) (l : String)
    (h : acc.2.phantoms.Nodup) :
    ((removeLinkStep n acc l).2).phantoms.Nodup := by
  by_cases hph : acc.2.is_phantom l = true
  · by_cases hc : acc.2.count_incoming_links l ≤ 1
    · simp only [removeLinkStep]
      rw [if_pos hph, if_pos hc]
      exact nodup_setRemove _ _ h
    · simp only [removeLinkStep]
      rw [if_pos hph, if_neg hc]
      exact h
  · simp only [removeLinkStep]
    rw [if_neg hph]
    exact h

theorem addLink_fold_phantoms_nodup (n : String) (ls : List String)
    (d : GraphDelta) (c : GraphCache) (h : c.phantoms.Nodup) :
    ((ls.foldl (addLinkStep n) (d, c)).2).phantoms.Nodup := by
  induction ls generalizing d c with
  | nil => exact h
  | cons l t ih =>
      rw [List.foldl_cons]
      rcases hs : addLinkStep n (d, c) l with ⟨d', c'⟩
      have hstep := addLinkStep_phantoms_nodup n (d, c) l h
      rw [hs] at hstep
      exact ih d' c' hstep

theorem removeLink_fold_phantoms_nodup (n : String) (ls : List String)
    (d : GraphDelta) (c : GraphCache) (h : c.phantoms.Nodup) :
    ((ls.foldl (removeLinkStep n) (d, c)).2).phantoms.Nodup := by
  induction ls generalizing d c with
  | nil => exact h
  | cons l t ih =>
      rw [List.foldl_cons]
      rcases hs : removeLinkStep n (d, c) l with ⟨d', c'⟩
      have hstep := removeLinkStep_phantoms_nodup n (d, c) l h
      rw [hs] at hstep
      exact ih d' c' hstep

theorem addLink_fold_delta_edges (n : String) (ls : List String)
    (d : GraphDelta) (c : GraphCache) :
    ((ls.foldl (addLinkStep n) (d, c)).1.edges_added =
        d.edges_added ++ ls.map (fun l => ⟨n, l⟩) ∧
     (ls.foldl (addLinkStep n) (d, c)).1.edges_removed =
        d.edges_removed) := by
  induction ls generalizing d c with
  | nil => simp
  | cons l t ih =>
      rw [List.foldl_cons]
      rcases hs : addLinkStep n (d, c) l with ⟨d', c'⟩
      have hstep : d'.edges_added = d.edges_added ++ [(⟨n, l⟩ : Edge)] ∧
          d'.edges_removed = d.edges_removed := by
        by_cases hb : (!c.node_exists l && !c.is_phantom l) = true
        · simp only [addLinkStep] at hs
          rw [if_pos hb] at hs
          cases hs
          exact ⟨rfl, rfl⟩
        · simp only [addLinkStep] at hs
          rw [if_neg hb] at hs
          cases hs
          exact ⟨rfl, rfl⟩
      have hrec := ih d' c'
      constructor
      · rw [hrec.1, hstep.1, List.map_cons, List.append_assoc]
        rfl
      · rw [hrec.2, hstep.2]

theorem removeLink_fold_delta_edges (n : String) (ls : List String)
    (d : GraphDelta) (c : GraphCache) :
    ((ls.foldl (removeLinkStep n) (d, c)).1.edges_removed =
        d.edges_removed ++ ls.map (fun l => ⟨n, l⟩) ∧
     (ls.foldl (removeLinkStep n) (d, c)).1.edges_added =
        d.edges_added) := by
  induction ls generalizing d c with
  | nil => simp
  | cons l t ih =>
      rw [List.foldl_cons]
      rcases hs : removeLinkStep n (d, c) l with ⟨d', c'⟩
      have hstep : d'.edges_removed = d.edges_removed ++ [(⟨n, l⟩ : Edge)] ∧
          d'.edges_added = d.edges_added := by
        by_cases hph : c.is_phantom l = true
        · by_cases hc : c.count_incoming_links l ≤ 1
          · simp only [removeLinkStep] at hs
            rw [if_pos hph, if_pos hc] at hs
            cases hs
            exact ⟨rfl, rfl⟩
          · simp only [removeLinkStep] at hs
            rw [if_pos hph, if_neg hc] at hs
            cases hs
            exact ⟨rfl, rfl⟩
        · simp only [removeLinkStep] at hs
          rw [if_neg hph] at hs
          cases hs
          exact ⟨rfl, rfl⟩
      have hrec := ih d' c'
      constructor
      · rw [hrec.1, hstep.1, List.map_cons, List.append_assoc]
        rfl
      · rw [hrec.2, hstep.2]

/-! ## Cache-state characterization of the three handlers -/

theorem handle_file_created_cache (path : FsPath) (fs : FileSystem)
    (c : GraphCache) (file : MarkdownFile)
    (hread : read_markdown_file path fs = .ok file) :
    (((handle_file_created path fs c).2).files =
      mapInsert c.files file.name path.raw ∧
    ((handle_file_created path fs c).2).links =
      mapInsert c.links file.name file.content.wiki_links ∧
    ((handle_file_created path fs c).2).hashtags =
      mapInsert c.hashtags file.name file.content.hashtags ∧
    (∀ x, x ∈ ((handle_file_created path fs c).2).phantoms ↔
      x ≠ file.name ∧ (x ∈ c.phantoms ∨
        (x ∈ file.content.wiki_links ∧ c.node_exists x = false))) ∧
    (c.phantoms.Nodup → ((handle_file_created path fs c).2).phantoms.Nodup)) := by
  simp only [handle_file_created, hread, parse_markdown]
  by_cases hph : c.is_phantom file.name = true
  · rw [if_pos hph]
    have hfold := addLink_fold_cache file.name file.content.wiki_links
    have hmem := addLink_fold_phantoms_mem file.name file.content.wiki_links
    have hnd := addLink_fold_phantoms_nodup file.name file.content.wiki_links
    have hphm : file.name ∈ c.phantoms := by
      simpa [GraphCache.is_phantom] using hph
    refine ⟨?_, ?_, ?_, ?_, ?_⟩
    · simp only [GraphCache.add_file]
      rw [(hfold _ _).1]
      rfl
    · simp only [GraphCache.add_file]
      rw [(hfold _ _).2.1]
      rfl
    · simp only [GraphCache.add_file]
      rw [(hfold _ _).2.2]
      rfl
    · intro x
      simp only [GraphCache.add_file]
      rw [mem_setRemove, hmem _ _ x]
      have hexc : ∀ y, (c.remove_phantom file.name).node_exists y =
          c.node_exists y := fun y => rfl
      simp only [GraphCache.remove_phantom, mem_setRemove, hexc]
      constructor
      · rintro ⟨h | ⟨hw, hex⟩, hne⟩
        · exact ⟨hne, Or.inl h.1⟩
        · exact ⟨hne, Or.inr ⟨hw, hex⟩⟩
      · rintro ⟨hne, h | ⟨hw, hex⟩⟩
        · exact ⟨Or.inl ⟨h, hne⟩, hne⟩
        · exact ⟨Or.inr ⟨hw, hex⟩, hne⟩
    · intro hndc
      simp only [GraphCache.add_file]
      exact nodup_setRemove _ _
        (hnd _ _ (nodup_setRemove _ _ hndc))
  · rw [if_neg hph]
    have hfold := addLink_fold_cache file.name file.content.wiki_links
    have hmem := addLink_fold_phantoms_mem file.name file.content.wiki_links
    have hnd := addLink_fold_phantoms_nodup file.name file.content.wiki_links
    have hphm : file.name ∉ c.phantoms := by
      simpa [GraphCache.is_phantom] using hph
    refine ⟨?_, ?_, ?_, ?_, ?_⟩
    · simp only [GraphCache.add_file]
      rw [(hfold _ _).1]
    · simp only [GraphCache.add_file]
      rw [(hfold _ _).2.1]
    · simp only [GraphCache.add_file]
      rw [(hfold _ _).2.2]
    · intro x
      simp only [GraphCache.add_file]
      rw [mem_setRemove, hmem _ _ x]
      constructor
      · rintro ⟨h | ⟨hw, hex⟩, hne⟩
        · exact ⟨hne, Or.inl h⟩
        · exact ⟨hne, Or.inr ⟨hw, hex⟩⟩
      · rintro ⟨hne, h | ⟨hw, hex⟩⟩
        · exact ⟨Or.inl h, hne⟩
        · exact ⟨Or.inr ⟨hw, hex⟩, hne⟩
    · intro hndc
      simp only [GraphCache.add_file]
      exact nodup_setRemove _ _ (hnd _ _ hndc)

theorem handle_file_modified_same (path : FsPath) (fs : FileSystem)
    (c : GraphCache) (file : MarkdownFile)
    (hread : read_markdown_file path fs = .ok file)
    (hs : sameLinkSet (c.get_links file.name)
      file.content.wiki_links = true) :
    handle_file_modified path fs c = (.ok {}, c) := by
  simp only [handle_file_modified, hread, parse_markdown]
  rw [if_pos hs]

theorem handle_file_modified_changed (path : FsPath) (fs : FileSystem)
    (c : GraphCache) (file : MarkdownFile)
    (hread : read_markdown_file path fs = .ok file)
    (hs : sameLinkSet (c.get_links file.name)
      file.content.wiki_links = false) :
    (((handle_file_modified path fs c).2).files = c.files ∧
    ((handle_file_modified path fs c).2).hashtags = c.hashtags ∧
    ((handle_file_modified path fs c).2).links =
      mapInsert c.links file.name file.content.wiki_links ∧
    (∀ x, x ∈ ((handle_file_modified path fs c).2).phantoms ↔
      ((x ∈ c.phantoms ∧
          ¬(x ∈ setDifference (c.get_links file.name)
                file.content.wiki_links ∧
            c.count_incoming_links x ≤ 1)) ∨
       (x ∈ setDifference file.content.wiki_links
              (c.get_links file.name) ∧
        c.node_exists x = false))) ∧
    (c.phantoms.Nodup →
      ((handle_file_modified path fs c).2).phantoms.Nodup) ∧
    (∃ d, (handle_file_modified path fs c).1 = .ok d ∧
      d.edges_removed =
        (setDifference (c.get_links file.name)
          file.content.wiki_links).map (fun l => ⟨file.name, l⟩) ∧
      d.edges_added =
        (setDifference file.content.wiki_links
          (c.get_links file.name)).map (fun l => ⟨file.name, l⟩))) := by
  simp only [handle_file_modified, hread, parse_markdown]
  rw [if_neg (by simp [hs])]
  have hrfold := removeLink_fold_cache file.name
  have hafold := addLink_fold_cache file.name
  have hrmem := removeLink_fold_phantoms_mem file.name
  have hamem := addLink_fold_phantoms_mem file.name
  refine ⟨?_, ?_, ?_, ?_, ?_, ?_⟩
  · simp only [GraphCache.update_links]
    rw [(hafold _ _ _).1, (hrfold _ _ _).1]
  · simp only [GraphCache.update_links]
    rw [(hafold _ _ _).2.2, (hrfold _ _ _).2.2]
  · simp only [GraphCache.update_links]
    rw [(hafold _ _ _).2.1, (hrfold _ _ _).2.1]
  · intro x
    simp only [GraphCache.update_links]
    rw [hamem _ _ _ x]
    rw [hrmem _ _ _ x]
    have hexeq := node_exists_congr
      (removeLink_fold_cache file.name
        (setDifference (c.get_links file.name) file.content.wiki_links)
        {} c).1 x
    rw [hexeq]
  · intro hndc
    simp only [GraphCache.update_links]
    exact addLink_fold_phantoms_nodup _ _ _ _
      (removeLink_fold_phantoms_nodup _ _ _ _ hndc)
  · refine ⟨_, rfl, ?_, ?_⟩
    · rw [(addLink_fold_delta_edges _ _ _ _).2,
        (removeLink_fold_delta_edges _ _ _ _).1]
      rfl
    · rw [(addLink_fold_delta_edges _ _ _ _).1,
        (removeLink_fold_delta_edges _ _ _ _).2]
      rfl

theorem handle_file_deleted_cache (path : FsPath) (c : GraphCache)
    (name : String) (hstem : path.stem = some name) :
    (((handle_file_deleted path c).1).isOk = true ∧
    ((handle_file_deleted path c).2).files = mapRemove c.files name ∧
    ((handle_file_deleted path c).2).links = mapRemove c.links name ∧
    ((handle_file_deleted path c).2).hashtags = mapRemove c.hashtags name ∧
    (∀ x, x ∈ ((handle_file_deleted path c).2).phantoms ↔
      ((0 < c.count_incoming_links name ∧ x = name) ∨
       (x ∈ c.phantoms ∧
         ¬(x ∈ c.get_links name ∧ c.count_incoming_links x ≤ 1)))) ∧
    (c.phantoms.Nodup → ((handle_file_deleted path c).2).phantoms.Nodup)) := by
  simp only [handle_file_deleted, hstem]
  have hrfold := removeLink_fold_cache name (c.get_links name) {} c
  have hrmem := removeLink_fold_phantoms_mem name (c.get_links name) {} c
  have hcnt := count_congr hrfold.2.1
  by_cases hpos : ((c.get_links name).foldl (removeLinkStep name)
      ({}, c)).2.count_incoming_links name > 0
  · rw [if_pos hpos]
    refine ⟨rfl, ?_, ?_, ?_, ?_, ?_⟩
    · simp only [GraphCache.remove_file, GraphCache.add_phantom]
      rw [hrfold.1]
    · simp only [GraphCache.remove_file, GraphCache.add_phantom]
      rw [hrfold.2.1]
    · simp only [GraphCache.remove_file, GraphCache.add_phantom]
      rw [hrfold.2.2]
    · intro x
      simp only [GraphCache.remove_file, GraphCache.add_phantom]
      rw [mem_setInsert, hrmem x]
      rw [hcnt name] at hpos
      constructor
      · rintro (rfl | h)
        · exact Or.inl ⟨hpos, rfl⟩
        · exact Or.inr h
      · rintro (⟨_, rfl⟩ | h)
        · exact Or.inl rfl
        · exact Or.inr h
    · intro hndc
      simp only [GraphCache.remove_file, GraphCache.add_phantom]
      exact nodup_setInsert _ _
        (removeLink_fold_phantoms_nodup _ _ _ _ hndc)
  · rw [if_neg hpos]
    rw [hcnt name] at hpos
    refine ⟨rfl, ?_, ?_, ?_, ?_, ?_⟩
    · simp only [GraphCache.remove_file]
      rw [hrfold.1]
    · simp only [GraphCache.remove_file]
      rw [hrfold.2.1]
    · simp only [GraphCache.remove_file]
      rw [hrfold.2.2]
    · intro x
      simp only [GraphCache.remove_file]
      rw [hrmem x]
      constructor
      · exact fun h => Or.inr h
      · rintro (⟨hp, rfl⟩ | h)
        · exact absurd hp hpos
        · exact h
    · intro hndc
      simp only [GraphCache.remove_file]
      exact removeLink_fold_phantoms_nodup _ _ _ _ hndc

/-! ## Claim C8: error exits leave the index untouched -/

/-- C8: whenever one of the three event handlers returns an error (the
file is unreadable, or the path has no derivable stem for a delete), the
reference index is exactly what it was before the call: no mapping is
partially mutated. -/
theorem handlers_error_leave_cache_unchanged (path : FsPath)
    (fs : FileSystem) (c : GraphCache) :
    (((handle_file_created path fs c).1.isOk = false →
        (handle_file_created path fs c).2 = c) ∧
     ((handle_file_modified path fs c).1.isOk = false →
        (handle_file_modified path fs c).2 = c) ∧
     ((handle_file_deleted path c).1.isOk = false →
        (handle_file_deleted path c).2 = c)) := by
  refine ⟨?_, ?_, ?_⟩
  · cases hread : read_markdown_file path fs with
    | error e => intro _; simp [handle_file_created, hread]
    | ok file =>
        intro habs
        simp [handle_file_created, hread, Except.isOk, Except.toBool] at habs
  · cases hread : read_markdown_file path fs with
    | error e => intro _; simp [handle_file_modified, hread]
    | ok file =>
        intro habs
        by_cases hs : sameLinkSet (c.get_links file.name)
            file.content.wiki_links = true
        · rw [handle_file_modified_same path fs c file hread hs] at habs
          simp [Except.isOk, Except.toBool] at habs
        · obtain ⟨d, hok, -, -⟩ :=
            (handle_file_modified_changed path fs c file hread
              ((Bool.not_eq_true _) ▸ hs)).2.2.2.2.2
          rw [hok] at habs
          simp [Except.isOk, Except.toBool] at habs
  · cases hstem : path.stem with
    | none => intro _; simp [handle_file_deleted, hstem]
    | some name =>
        intro habs
        rw [(handle_file_deleted_cache path c name hstem).1] at habs
        cases habs

/-- C8 witness: all three handlers fail on a stem-less, unreadable path
and hand back the index unchanged. -/
theorem handlers_error_leave_cache_unchanged_witness :
    ((handle_file_created ⟨"", none⟩ []
        ⟨[("A", "A.md")], [("A", ["B"])], [("A", ["t"])], ["B"]⟩).2 =
      ⟨[("A", "A.md")], [("A", ["B"])], [("A", ["t"])], ["B"]⟩ ∧
     (handle_file_modified ⟨"", none⟩ []
        ⟨[("A", "A.md")], [("A", ["B"])], [("A", ["t"])], ["B"]⟩).2 =
      ⟨[("A", "A.md")], [("A", ["B"])], [("A", ["t"])], ["B"]⟩ ∧
     (handle_file_deleted ⟨"", none⟩
        ⟨[("A", "A.md")], [("A", ["B"])], [("A", ["t"])], ["B"]⟩).2 =
      ⟨[("A", "A.md")], [("A", ["B"])], [("A", ["t"])], ["B"]⟩) := by
  have h := handlers_error_leave_cache_unchanged ⟨"", none⟩ []
    ⟨[("A", "A.md")], [("A", ["B"])], [("A", ["t"])], ["B"]⟩
  exact ⟨h.1 (by rfl), h.2.1 (by rfl), h.2.2 (by rfl)⟩

/-! ## Claim C10: a modify never touches the stored tags -/

theorem modified_hashtags_frame (path : FsPath) (fs : FileSystem)
    (c : GraphCache) :
    ((handle_file_modified path fs c).2).hashtags = c.hashtags := by
  cases hread : read_markdown_file path fs with
  | error e => simp [handle_file_modified, hread]
  | ok file =>
      by_cases hs : sameLinkSet (c.get_links file.name)
          file.content.wiki_links = true
      · rw [handle_file_modified_same path fs c file hread hs]
      · exact (handle_file_modified_changed path fs c file hread
          ((Bool.not_eq_true _) ▸ hs)).2.1

/-- C10: a successful modify leaves the index's stored tags mapping
unchanged — even when the newly parsed tags differ and the returned
delta is non-empty, the modified document's tags entry keeps its old
value. -/
theorem handle_file_modified_preserves_hashtags (path : FsPath)
    (fs : FileSystem) (c : GraphCache) (d : GraphDelta)
    (hok : (handle_file_modified path fs c).1 = .ok d) :
    ((handle_file_modified path fs c).2).hashtags = c.hashtags :=
  modified_hashtags_frame path fs c

/-- C10 witness: a successful modify that changes the parsed tags from
`["old"]` to `["new"]` and removes a link (non-empty delta) still keeps
the stored tags entry at `["old"]`. -/
theorem handle_file_modified_preserves_hashtags_witness :
    ((handle_file_modified ⟨"A.md", some "A"⟩
        [(⟨"A.md", some "A"⟩, ⟨[], ["new"]⟩)]
        ⟨[("A", "A.md")], [("A", ["C"])], [("A", ["old"])], []⟩).2).hashtags =
      [("A", ["old"])] :=
  handle_file_modified_preserves_hashtags ⟨"A.md", some "A"⟩
    [(⟨"A.md", some "A"⟩, ⟨[], ["new"]⟩)]
    ⟨[("A", "A.md")], [("A", ["C"])], [("A", ["old"])], []⟩
    { edges_removed := [⟨"A", "C"⟩] } (by rfl)

/-! ## Claim C1: what the incoming-link count counts -/

/-- C1 counterexample: a document whose outgoing list contains the
target twice contributes only one, not two — `count_incoming_links`
does not count with multiplicity. -/
theorem count_incoming_links_not_multiplicity :
    GraphCache.count_incoming_links ⟨[], [("A", ["B", "B"])], [], []⟩ "B" ≠
      linkOccurrenceTotal ⟨[], [("A", ["B", "B"])], [], []⟩ "B" := by
  decide

/-- C1 amended: for every cache and target, `count_incoming_links`
returns the number of stored documents whose outgoing list contains the
target — each document contributes at most one however many times its
list repeats the target (stated for caches with unique link keys, which
every reachable cache has). -/
theorem count_incoming_links_counts_documents (c : GraphCache)
    (target : String) (hnd : (c.links.map Prod.fst).Nodup) :
    c.count_incoming_links target = (docsLinkingTo c target).length := by
  rw [count_incoming_links_eq_countP, docsLinkingTo,
    ← List.countP_eq_length_filter, List.countP_map]
  refine List.countP_congr ?_
  intro p hp
  have hlk : mapLookup c.links p.1 = some p.2 := lookup_of_mem hnd hp
  simp [GraphCache.get_links, Function.comp, hlk]

/-- C1 amended witness: on a cache where document A lists B twice and C
lists B once, the count is 2, the length of the referencing-document
list. -/
theorem count_incoming_links_counts_documents_witness :
    GraphCache.count_incoming_links
      ⟨[], [("A", ["B", "B"]), ("C", ["B"]), ("D", ["E"])], [], []⟩ "B" =
    (docsLinkingTo
      ⟨[], [("A", ["B", "B"]), ("C", ["B"]), ("D", ["E"])], [], []⟩
      "B").length :=
  count_incoming_links_counts_documents
    ⟨[], [("A", ["B", "B"]), ("C", ["B"]), ("D", ["E"])], [], []⟩ "B"
    (by decide)

/-! ## Claim C5: when the stored outgoing list is replaced -/

/-- C5 counterexample: a successful modify whose old and new reference
sets are equal but whose multiplicities differ returns without touching
the stored list: stored `["B", "B"]`, newly parsed `["B"]`, stored list
after the call still `["B", "B"]`. -/
theorem update_links_skipped_on_equal_sets :
    ((handle_file_modified ⟨"A.md", some "A"⟩
        [(⟨"A.md", some "A"⟩, ⟨["B"], []⟩)]
        ⟨[("A", "A.md")], [("A", ["B", "B"])], [("A", [])], []⟩).1.isOk
          = true ∧
     ((handle_file_modified ⟨"A.md", some "A"⟩
        [(⟨"A.md", some "A"⟩, ⟨["B"], []⟩)]
        ⟨[("A", "A.md")], [("A", ["B", "B"])], [("A", [])], []⟩).2).links =
       [("A", ["B", "B"])] ∧
     (["B", "B"] : List String) ≠ ["B"]) :=
  ⟨by rfl, by rfl, by decide⟩

/-- C5 amended: on a successful modify the stored outgoing list is
replaced by the full newly parsed list (multiplicities included)
whenever the old and new reference sets differ; when the sets are equal
the handler returns early and the index — the stored list included — is
left unchanged. -/
theorem handle_file_modified_links_replacement (path : FsPath)
    (fs : FileSystem) (c : GraphCache) (file : MarkdownFile)
    (hread : read_markdown_file path fs = .ok file) :
    ((sameLinkSet (c.get_links file.name) file.content.wiki_links = false →
       mapLookup ((handle_file_modified path fs c).2).links file.name =
         some file.content.wiki_links) ∧
     (sameLinkSet (c.get_links file.name) file.content.wiki_links = true →
       (handle_file_modified path fs c).2 = c)) := by
  constructor
  · intro hs
    rw [(handle_file_modified_changed path fs c file hread hs).2.2.1,
      mapLookup_insert]
    simp
  · intro hs
    rw [handle_file_modified_same path fs c file hread hs]

/-- C5 amended witness: replacing `["B"]` by `["C", "C"]` stores the
full new list with both occurrences. -/
theorem handle_file_modified_links_replacement_witness :
    mapLookup ((handle_file_modified ⟨"A.md", some "A"⟩
        [(⟨"A.md", some "A"⟩, ⟨["C", "C"], []⟩)]
        ⟨[("A", "A.md")], [("A", ["B"])], [("A", [])], []⟩).2).links "A" =
      some ["C", "C"] :=
  (handle_file_modified_links_replacement ⟨"A.md", some "A"⟩
    [(⟨"A.md", some "A"⟩, ⟨["C", "C"], []⟩)]
    ⟨[("A", "A.md")], [("A", ["B"])], [("A", [])], []⟩
    ⟨"A.md", ⟨["C", "C"], []⟩, "A"⟩ (by rfl)).1 (by decide)

/-! ## Claim C4: the delete handler counts the document's own
self-references -/

/-- C4: deleting document A whose only stored reference to A is its own
(`outgoing[A] = [A]`, no other document mentions A) takes the
`incoming_links > 0` branch: the returned delta carries
node-removed(A) immediately followed by node-added(Phantom A), although
the incoming count from other documents is 0 — the handler's count
includes the document's own stored self-references, contradicting its
documented behavior. -/
theorem delete_counts_own_self_reference :
    (incomingFromOthers
        ⟨[("A", "A.md")], [("A", ["A"])], [("A", [])], []⟩ "A" = 0 ∧
     (handle_file_deleted ⟨"A.md", some "A"⟩
        ⟨[("A", "A.md")], [("A", ["A"])], [("A", [])], []⟩).1 =
       .ok { nodes_added := [Node.phantom "A"], nodes_removed := ["A"],
             edges_removed := [⟨"A", "A"⟩] }) :=
  ⟨by decide, by rfl⟩

/-! ## Claim C3: the phantom invariant breaks on self-reference
deletion -/

/-- C3: after the successfully processed events create(A, content
"[[A]]") then delete(A), the index keeps A in the phantom set although
no stored outgoing list contains A and A has no document — the claimed
invariant (phantom iff referenced and documentless) fails after this
event. -/
theorem delete_self_reference_breaks_phantom_invariant :
    ((handle_file_created ⟨"A.md", some "A"⟩
        [(⟨"A.md", some "A"⟩, ⟨["A"], []⟩)] GraphCache.new).1.isOk
        = true ∧
     (handle_file_deleted ⟨"A.md", some "A"⟩
        (handle_file_created ⟨"A.md", some "A"⟩
          [(⟨"A.md", some "A"⟩, ⟨["A"], []⟩)] GraphCache.new).2).1.isOk
        = true ∧
     (handle_file_deleted ⟨"A.md", some "A"⟩
        (handle_file_created ⟨"A.md", some "A"⟩
          [(⟨"A.md", some "A"⟩, ⟨["A"], []⟩)]
          GraphCache.new).2).2.phantoms = ["A"] ∧
     (handle_file_deleted ⟨"A.md", some "A"⟩
        (handle_file_created ⟨"A.md", some "A"⟩
          [(⟨"A.md", some "A"⟩, ⟨["A"], []⟩)]
          GraphCache.new).2).2.links = [] ∧
     (handle_file_deleted ⟨"A.md", some "A"⟩
        (handle_file_created ⟨"A.md", some "A"⟩
          [(⟨"A.md", some "A"⟩, ⟨["A"], []⟩)]
          GraphCache.new).2).2.files = []) :=
  ⟨by rfl, by rfl, by rfl, by rfl, by rfl⟩

/-! ## Claim C9: the empty-delta condition of a modify -/

theorem sameLinkSet_iff_toFinset (a b : List String) :
    sameLinkSet a b = true ↔ a.toFinset = b.toFinset := by
  simp only [sameLinkSet, Bool.and_eq_true, List.all_eq_true,
    decide_eq_true_eq]
  constructor
  · rintro ⟨h1, h2⟩
    ext x
    simp only [List.mem_toFinset]
    exact ⟨h1 x, h2 x⟩
  · intro h
    constructor
    · intro x hx
      rw [← List.mem_toFinset, h, List.mem_toFinset] at hx
      exact hx
    · intro x hx
      rw [← List.mem_toFinset, ← h, List.mem_toFinset] at hx
      exact hx

theorem sameLinkSet_of_empty_differences {a b : List String}
    (h1 : setDifference a b = []) (h2 : setDifference b a = []) :
    sameLinkSet a b = true := by
  simp only [sameLinkSet, Bool.and_eq_true, List.all_eq_true,
    decide_eq_true_eq]
  simp only [setDifference, List.filter_eq_nil_iff, decide_eq_true_eq,
    List.mem_dedup, not_not] at h1 h2
  exact ⟨h1, h2⟩

/-- C9: a successful modify returns an all-empty delta iff the newly
parsed reference set equals the previously stored reference set
(duplicate occurrences collapsed) — tags play no part in the test — and
an all-empty delta is never handed to the emitter by the event
dispatcher. -/
theorem modified_empty_delta_iff_same_set (path : FsPath)
    (fs : FileSystem) (c : GraphCache) (file : MarkdownFile)
    (d : GraphDelta)
    (hread : read_markdown_file path fs = .ok file)
    (hok : (handle_file_modified path fs c).1 = .ok d) :
    ((d.is_empty = true ↔
       (c.get_links file.name).toFinset =
         file.content.wiki_links.toFinset) ∧
     (d.is_empty = true →
       processDeltaResult ((handle_file_modified path fs c).1) = [])) := by
  have hside : d.is_empty = true →
      processDeltaResult ((handle_file_modified path fs c).1) = [] := by
    intro he
    rw [hok]
    simp [processDeltaResult, he]
  refine ⟨?_, hside⟩
  by_cases hs : sameLinkSet (c.get_links file.name)
      file.content.wiki_links = true
  · have heq := handle_file_modified_same path fs c file hread hs
    rw [heq] at hok
    have hd : d = {} := by
      injection hok with h
      exact h.symm
    subst hd
    exact iff_of_true (by rfl) ((sameLinkSet_iff_toFinset _ _).mp hs)
  · have hs' : sameLinkSet (c.get_links file.name)
        file.content.wiki_links = false := (Bool.not_eq_true _) ▸ hs
    obtain ⟨d', hok', hrem, hadd⟩ :=
      (handle_file_modified_changed path fs c file hread hs').2.2.2.2.2
    rw [hok'] at hok
    have hd : d = d' := by
      injection hok with h
      exact h.symm
    subst hd
    refine iff_of_false ?_ ?_
    · intro he
      simp only [GraphDelta.is_empty, Bool.and_eq_true,
        List.isEmpty_iff] at he
      have hremnil : setDifference (c.get_links file.name)
          file.content.wiki_links = [] :=
        List.map_eq_nil_iff.mp (hrem ▸ he.2)
      have haddnil : setDifference file.content.wiki_links
          (c.get_links file.name) = [] :=
        List.map_eq_nil_iff.mp (hadd ▸ he.1.2)
      rw [sameLinkSet_of_empty_differences hremnil haddnil] at hs'
      cases hs'
    · intro he
      rw [((sameLinkSet_iff_toFinset _ _).mpr he)] at hs'
      cases hs'

/-- C9 witness: storing `["B"]` and parsing `["B", "B"]` (equal sets)
yields the empty delta, and the dispatcher emits nothing for it. -/
theorem modified_empty_delta_iff_same_set_witness :
    ((GraphDelta.is_empty {} = true ↔
       (GraphCache.get_links
         ⟨[("A", "A.md")], [("A", ["B"])], [("A", [])], []⟩ "A").toFinset =
       (["B", "B"] : List String).toFinset) ∧
     (GraphDelta.is_empty {} = true →
       processDeltaResult ((handle_file_modified ⟨"A.md", some "A"⟩
         [(⟨"A.md", some "A"⟩, ⟨["B", "B"], []⟩)]
         ⟨[("A", "A.md")], [("A", ["B"])], [("A", [])], []⟩).1) = [])) :=
  modified_empty_delta_iff_same_set ⟨"A.md", some "A"⟩
    [(⟨"A.md", some "A"⟩, ⟨["B", "B"], []⟩)]
    ⟨[("A", "A.md")], [("A", ["B"])], [("A", [])], []⟩
    ⟨"A.md", ⟨["B", "B"], []⟩, "A"⟩ {} (by rfl) (by rfl)

/-! ## Shape of the full-scan builder -/

theorem buildEdge_inner_edges (files : List MarkdownFile) (fname : String)
    (ls : List String) (st : BuildState) :
    (ls.foldl (buildEdgeStep files fname) st).edges =
      st.edges ++ ls.map (fun l => ⟨fname, l⟩) := by
  induction ls generalizing st with
  | nil => simp
  | cons l t ih =>
      rw [List.foldl_cons, ih]
      simp [buildEdgeStep]

theorem buildEdge_inner_ar (files : List MarkdownFile) (fname : String)
    (ls : List String) (st : BuildState) (x : String) :
    mapLookup (ls.foldl (buildEdgeStep files fname) st).all_referenced x =
      if x ∈ ls then some (fileMapContains files x)
      else mapLookup st.all_referenced x := by
  induction ls generalizing st with
  | nil => simp
  | cons l t ih =>
      rw [List.foldl_cons, ih]
      by_cases hxt : x ∈ t
      · rw [if_pos hxt, if_pos (List.mem_cons_of_mem l hxt)]
      · rw [if_neg hxt]
        show mapLookup (mapInsert st.all_referenced l
          (fileMapContains files l)) x = _
        rw [mapLookup_insert]
        by_cases hxl : x = l
        · rw [if_pos hxl, if_pos (by rw [hxl]; exact List.mem_cons_self l t),
            hxl]
        · rw [if_neg hxl, if_neg (by
            rw [List.mem_cons]
            rintro (h | h)
            exacts [hxl h, hxt h])]

theorem buildEdge_inner_ar_nodup (files : List MarkdownFile)
    (fname : String) (ls : List String) (st : BuildState)
    (h : (st.all_referenced.map Prod.fst).Nodup) :
    (((ls.foldl (buildEdgeStep files fname) st).all_referenced).map
      Prod.fst).Nodup := by
  induction ls generalizing st with
  | nil => exact h
  | cons l t ih =>
      rw [List.foldl_cons]
      exact ih _ (nodup_keys_insert _ _ _ h)

theorem buildPass1_go_edges (files fs : List MarkdownFile)
    (st : BuildState) :
    ((fs.foldl
        (fun st file =>
          (parse_markdown file.content).wiki_links.foldl
            (buildEdgeStep files file.name) st)
        st).edges =
      st.edges ++ fs.flatMap (fun f =>
        (parse_markdown f.content).wiki_links.map
          (fun l => ⟨f.name, l⟩))) := by
  induction fs generalizing st with
  | nil => simp
  | cons f t ih =>
      rw [List.foldl_cons, ih, buildEdge_inner_edges, List.flatMap_cons,
        List.append_assoc]

theorem buildPass1_edges (files : List MarkdownFile) :
    (buildPass1 files).edges =
      files.flatMap (fun f =>
        (parse_markdown f.content).wiki_links.map (fun l => ⟨f.name, l⟩)) := by
  rw [buildPass1, buildPass1_go_edges]
  rfl

theorem buildPass1_go_ar (files fs : List MarkdownFile)
    (st : BuildState) (x : String) :
    mapLookup
      ((fs.foldl
        (fun st file =>
          (parse_markdown file.content).wiki_links.foldl
            (buildEdgeStep files file.name) st)
        st).all_referenced) x =
      if x ∈ fs.flatMap (fun f => (parse_markdown f.content).wiki_links)
      then some (fileMapContains files x)
      else mapLookup st.all_referenced x := by
  induction fs generalizing st with
  | nil => simp
  | cons f t ih =>
      rw [List.foldl_cons, ih]
      by_cases hxt : x ∈ t.flatMap
          (fun f => (parse_markdown f.content).wiki_links)
      · rw [if_pos hxt, if_pos (by
          rw [List.flatMap_cons, List.mem_append]
          exact Or.inr hxt)]
      · rw [if_neg hxt, buildEdge_inner_ar]
        by_cases hxf : x ∈ (parse_markdown f.content).wiki_links
        · rw [if_pos hxf, if_pos (by
            rw [List.flatMap_cons, List.mem_append]
            exact Or.inl hxf)]
        · rw [if_neg hxf, if_neg (by
            rw [List.flatMap_cons, List.mem_append]
            rintro (h | h)
            exacts [hxf h, hxt h])]

theorem buildPass1_ar (files : List MarkdownFile) (x : String) :
    mapLookup (buildPass1 files).all_referenced x =
      if x ∈ files.flatMap (fun f => (parse_markdown f.content).wiki_links)
      then some (fileMapContains files x)
      else none := by
  rw [buildPass1, buildPass1_go_ar]
  rfl

theorem buildPass1_ar_nodup (files : List MarkdownFile) :
    (((buildPass1 files).all_referenced).map Prod.fst).Nodup := by
  rw [buildPass1]
  have hgen : ∀ (fs : List MarkdownFile) (st : BuildState),
      ((st.all_referenced).map Prod.fst).Nodup →
      (((fs.foldl
        (fun st file =>
          (parse_markdown file.content).wiki_links.foldl
            (buildEdgeStep files file.name) st)
        st).all_referenced).map Prod.fst).Nodup := by
    intro fs
    induction fs with
    | nil => exact fun st h => h
    | cons f t ih =>
        intro st h
        rw [List.foldl_cons]
        exact ih _ (buildEdge_inner_ar_nodup _ _ _ _ h)
  exact hgen files ⟨[], [], []⟩ (by simp)

theorem buildPass2_fst (lc : List (String × Nat))
    (fs : List MarkdownFile) (ns : List Node)
    (ar : List (String × Bool)) :
    (buildPass2 lc fs (ns, ar)).1 = ns ++ fs.map (buildNode lc) := by
  induction fs generalizing ns ar with
  | nil => simp [buildPass2]
  | cons f t ih =>
      show (buildPass2 lc t
        (ns ++ [buildNode lc f], mapInsert ar f.name true)).1 = _
      rw [ih, List.map_cons, List.append_assoc]
      rfl

theorem buildPass2_snd_lookup (lc : List (String × Nat))
    (fs : List MarkdownFile) (ns : List Node)
    (ar : List (String × Bool)) (x : String) :
    mapLookup (buildPass2 lc fs (ns, ar)).2 x =
      if x ∈ fs.map (fun f => f.name) then some true
      else mapLookup ar x := by
  induction fs generalizing ns ar with
  | nil => simp [buildPass2]
  | cons f t ih =>
      show mapLookup (buildPass2 lc t
        (ns ++ [buildNode lc f], mapInsert ar f.name true)).2 x = _
      rw [ih]
      by_cases hxt : x ∈ t.map (fun f => f.name)
      · rw [if_pos hxt, if_pos (by
          rw [List.map_cons]
          exact List.mem_cons_of_mem _ hxt)]
      · rw [if_neg hxt, mapLookup_insert]
        by_cases hxf : x = f.name
        · rw [if_pos hxf, if_pos (by
            rw [List.map_cons, hxf]
            exact List.mem_cons_self _ _)]
        · rw [if_neg hxf, if_neg (by
            rw [List.map_cons, List.mem_cons]
            rintro (h | h)
            exacts [hxf h, hxt h])]

theorem buildPass2_snd_nodup (lc : List (String × Nat))
    (fs : List MarkdownFile) (ns : List Node)
    (ar : List (String × Bool))
    (h : (ar.map Prod.fst).Nodup) :
    (((buildPass2 lc fs (ns, ar)).2).map Prod.fst).Nodup := by
  induction fs generalizing ns ar with
  | nil => exact h
  | cons f t ih =>
      show ((buildPass2 lc t
        (ns ++ [buildNode lc f], mapInsert ar f.name true)).2.map
          Prod.fst).Nodup
      exact ih _ _ (nodup_keys_insert _ _ _ h)

theorem fileMapContains_iff (files : List MarkdownFile) (x : String) :
    fileMapContains files x = true ↔ x ∈ files.map (fun f => f.name) := by
  simp only [fileMapContains, List.any_eq_true, decide_eq_true_eq,
    List.mem_map]

theorem build_graph_nodes (files : List MarkdownFile) :
    (build_graph files).nodes =
      files.map (buildNode (buildPass1 files).link_counts) ++
      (((buildPass2 (buildPass1 files).link_counts files
          ([], (buildPass1 files).all_referenced)).2).filter
        (fun p => !p.2)).map
        (buildPhantom (buildPass1 files).link_counts) := by
  rw [build_graph]
  rw [buildPass2_fst]
  rfl

theorem build_graph_edges (files : List MarkdownFile) :
    (build_graph files).edges =
      files.flatMap (fun f =>
        (parse_markdown f.content).wiki_links.map (fun l => ⟨f.name, l⟩)) := by
  rw [build_graph]
  exact buildPass1_edges files

theorem mem_edgesOf (ls : List (String × List String)) (e : Edge) :
    (e ∈ ls.foldr (fun p acc => p.2.map (fun l => ⟨p.1, l⟩) ++ acc) [] ↔
      ∃ p ∈ ls, ∃ l ∈ p.2, e = ⟨p.1, l⟩) := by
  induction ls with
  | nil => simp
  | cons p t ih =>
      simp only [List.foldr_cons, List.mem_append, ih, List.mem_cons,
        List.mem_map]
      constructor
      · rintro (⟨l, hl, rfl⟩ | ⟨q, hq, l, hl, rfl⟩)
        · exact ⟨p, Or.inl rfl, l, hl, rfl⟩
        · exact ⟨q, Or.inr hq, l, hl, rfl⟩
      · rintro ⟨q, hq | hq, l, hl, rfl⟩
        · subst hq
          exact Or.inl ⟨l, hl, rfl⟩
        · exact Or.inr ⟨q, hq, l, hl, rfl⟩

theorem mem_cacheEdges (c : GraphCache) (e : Edge) :
    (e ∈ cacheEdges c ↔ ∃ p ∈ c.links, ∃ l ∈ p.2, e = ⟨p.1, l⟩) :=
  mem_edgesOf c.links e

/-! ## Claim C6: referential completeness of the snapshot -/

theorem nodup_countP_eq_single {l : List String} (h : l.Nodup)
    (x : String) :
    l.countP (fun y => decide (y = x)) = if x ∈ l then 1 else 0 := by
  induction l with
  | nil => simp
  | cons a t ih =>
      rw [List.nodup_cons] at h
      rw [List.countP_cons, ih h.2]
      by_cases hax : a = x
      · subst hax
        simp [h.1]
      · have hxa : ¬(x = a) := fun hh => hax hh.symm
        simp [hax, hxa, List.mem_cons]

/-- C6: in the snapshot the full-scan builder produces from a document
collection (ids distinct, as the specified document set is id-keyed),
every id appearing as an edge endpoint is the id of exactly one node —
never zero, never two — and every node carrying that id is Real
whenever a document with that id is part of the input. -/
theorem build_graph_referential_completeness (files : List MarkdownFile)
    (hnd : (files.map (fun f => f.name)).Nodup) (e : Edge)
    (he : e ∈ (build_graph files).edges) (x : String)
    (hx : x = e.«from» ∨ x = e.«to») :
    ((build_graph files).nodes.countP (fun n => decide (n.id = x)) = 1 ∧
     (x ∈ files.map (fun f => f.name) →
       ∀ n ∈ (build_graph files).nodes, n.id = x → n.group = none)) := by
  rw [build_graph_edges, List.mem_flatMap] at he
  obtain ⟨f, hf, he'⟩ := he
  rw [List.mem_map] at he'
  obtain ⟨l, hl, rfl⟩ := he'
  have har2lookup : ∀ y,
      mapLookup (buildPass2 (buildPass1 files).link_counts files
        ([], (buildPass1 files).all_referenced)).2 y =
      if y ∈ files.map (fun f => f.name) then some true
      else mapLookup (buildPass1 files).all_referenced y :=
    fun y => buildPass2_snd_lookup _ _ _ _ y
  have har2nodup := buildPass2_snd_nodup
    (buildPass1 files).link_counts files []
    (buildPass1 files).all_referenced (buildPass1_ar_nodup files)
  have hreal : (files.map
      (buildNode (buildPass1 files).link_counts)).countP
        (fun n => decide (n.id = x)) =
      if x ∈ files.map (fun f => f.name) then 1 else 0 := by
    rw [List.countP_map]
    have h2 := List.countP_map (fun y => decide (y = x))
      (fun (f : MarkdownFile) => f.name) files
    rw [nodup_countP_eq_single hnd x] at h2
    exact h2.symm
  have hphantom : ((((buildPass2 (buildPass1 files).link_counts files
        ([], (buildPass1 files).all_referenced)).2).filter
          (fun p => !p.2)).map
        (buildPhantom (buildPass1 files).link_counts)).countP
          (fun n => decide (n.id = x)) =
      (((buildPass2 (buildPass1 files).link_counts files
        ([], (buildPass1 files).all_referenced)).2).filter
          (fun p => !p.2)).countP (fun p => decide (p.1 = x)) :=
    List.countP_map _ _ _
  have hxcases : x ∈ files.map (fun f => f.name) ∨
      (x ∉ files.map (fun f => f.name) ∧
        x ∈ files.flatMap
          (fun f => (parse_markdown f.content).wiki_links)) := by
    rcases hx with rfl | rfl
    · exact Or.inl (List.mem_map.mpr ⟨f, hf, rfl⟩)
    · by_cases hmem : x ∈ files.map (fun f => f.name)
      · exact Or.inl hmem
      · exact Or.inr ⟨hmem, List.mem_flatMap.mpr ⟨f, hf, hl⟩⟩
  rcases hxcases with hxn | ⟨hxn, hxl⟩
  · have hph0 : (((buildPass2 (buildPass1 files).link_counts files
        ([], (buildPass1 files).all_referenced)).2).filter
          (fun p => !p.2)).countP (fun p => decide (p.1 = x)) = 0 := by
      by_contra h0
      have hpos : 0 < (((buildPass2 (buildPass1 files).link_counts files
          ([], (buildPass1 files).all_referenced)).2).filter
            (fun p => !p.2)).countP (fun p => decide (p.1 = x)) :=
        Nat.pos_of_ne_zero h0
      obtain ⟨p, hpmem, hpx⟩ := List.countP_pos.mp hpos
      have hpar2 := List.mem_of_mem_filter hpmem
      have hpfalse : p.2 = false := by
        have := List.of_mem_filter hpmem
        simpa using this
      have hpx' : p.1 = x := by simpa using hpx
      have hlk := lookup_of_mem har2nodup hpar2
      rw [hpx', har2lookup x, if_pos hxn, hpfalse] at hlk
      cases hlk
    constructor
    · rw [build_graph_nodes, List.countP_append, hreal, if_pos hxn,
        hphantom, hph0]
    · intro _ n hn hid
      rw [build_graph_nodes, List.mem_append] at hn
      rcases hn with hn | hn
      · obtain ⟨f', _, rfl⟩ := List.mem_map.mp hn
        rfl
      · exfalso
        obtain ⟨p, hpfilter, rfl⟩ := List.mem_map.mp hn
        have hpar2 := List.mem_of_mem_filter hpfilter
        have hpfalse : p.2 = false := by
          have := List.of_mem_filter hpfilter
          simpa using this
        have hpx : p.1 = x := hid
        have hlk := lookup_of_mem har2nodup hpar2
        rw [hpx, har2lookup x, if_pos hxn, hpfalse] at hlk
        cases hlk
  · have hlookupx : mapLookup (buildPass2 (buildPass1 files).link_counts
        files ([], (buildPass1 files).all_referenced)).2 x =
        some false := by
      rw [har2lookup x, if_neg hxn, buildPass1_ar, if_pos hxl]
      have : fileMapContains files x = false := by
        rw [← Bool.not_eq_true]
        intro hcontra
        exact hxn ((fileMapContains_iff files x).mp hcontra)
      rw [this]
    have hmemf : (x, false) ∈ ((buildPass2 (buildPass1 files).link_counts
        files ([], (buildPass1 files).all_referenced)).2).filter
          (fun p => !p.2) := by
      refine List.mem_filter.mpr ⟨mapLookup_mem hlookupx, by simp⟩
    have hge : 0 < (((buildPass2 (buildPass1 files).link_counts files
        ([], (buildPass1 files).all_referenced)).2).filter
          (fun p => !p.2)).countP (fun p => decide (p.1 = x)) :=
      List.countP_pos.mpr ⟨(x, false), hmemf, by simp⟩
    have hle : (((buildPass2 (buildPass1 files).link_counts files
        ([], (buildPass1 files).all_referenced)).2).filter
          (fun p => !p.2)).countP (fun p => decide (p.1 = x)) ≤ 1 := by
      refine countP_le_one_of_unique_key (n := x) ?_ ?_
      · exact ((List.filter_sublist _).map Prod.fst).nodup har2nodup
      · intro q _ hq
        simpa using hq
    constructor
    · rw [build_graph_nodes, List.countP_append, hreal, if_neg hxn,
        hphantom]
      omega
    · intro hmem
      exact absurd hmem hxn

/-- C6 witness: on the collection {A ↦ "[[B]]"} the edge A→B has both
endpoints backed by exactly one node each, and A's node is Real. -/
theorem build_graph_referential_completeness_witness :
    ((build_graph [⟨"A.md", ⟨["B"], []⟩, "A"⟩]).nodes.countP
        (fun n => decide (n.id = "A")) = 1 ∧
     ("A" ∈ [⟨"A.md", ⟨["B"], []⟩, "A"⟩].map
         (fun (f : MarkdownFile) => f.name) →
       ∀ n ∈ (build_graph [⟨"A.md", ⟨["B"], []⟩, "A"⟩]).nodes,
         n.id = "A" → n.group = none)) :=
  build_graph_referential_completeness [⟨"A.md", ⟨["B"], []⟩, "A"⟩]
    (by decide) ⟨"A", "B"⟩ (by decide) "A" (Or.inl rfl)

/-! ## Claim C2: rescan equivalence — infrastructure -/

theorem mem_mapInsert {α : Type} (m : List (String × α)) (k : String)
    (v : α) (p : String × α) :
    (p ∈ mapInsert m k v ↔ p = (k, v) ∨ (p ∈ m ∧ p.1 ≠ k)) := by
  simp [mapInsert, List.mem_filter]

theorem mem_mapRemove {α : Type} (m : List (String × α)) (k : String)
    (p : String × α) :
    (p ∈ mapRemove m k ↔ p ∈ m ∧ p.1 ≠ k) := by
  simp [mapRemove, List.mem_filter]

theorem sameLinkSet_refl (a : List String) : sameLinkSet a a = true := by
  simp [sameLinkSet, List.all_eq_true]

theorem sameLinkSet_mem {a b : List String}
    (h : sameLinkSet a b = true) (y : String) : y ∈ a ↔ y ∈ b := by
  simp only [sameLinkSet, Bool.and_eq_true, List.all_eq_true,
    decide_eq_true_eq] at h
  exact ⟨fun hy => h.1 y hy, fun hy => h.2 y hy⟩

theorem node_exists_iff_mem_keys (c : GraphCache) (y : String) :
    c.node_exists y = true ↔ y ∈ c.files.map Prod.fst := by
  rw [GraphCache.node_exists]
  exact mapLookup_isSome_iff c.files y

theorem get_links_entry {c : GraphCache} {n : String} {ls : List String}
    (hnd : (c.links.map Prod.fst).Nodup) (h : (n, ls) ∈ c.links) :
    c.get_links n = ls := by
  rw [GraphCache.get_links, lookup_of_mem hnd h]
  rfl

theorem cacheConsistent_iff (s : Corpus × GraphCache) :
    cacheConsistent s = true ↔
      ((s.1.map Prod.fst).Nodup ∧
       (s.2.files.map Prod.fst).Nodup ∧
       (s.2.links.map Prod.fst).Nodup ∧
       s.2.phantoms.Nodup ∧
       (∀ p ∈ s.1, s.2.node_exists p.1 = true) ∧
       (∀ p ∈ s.2.files, (mapLookup s.1 p.1).isSome = true) ∧
       (∀ p ∈ s.2.links, s.2.node_exists p.1 = true) ∧
       (∀ p ∈ s.2.files, (mapLookup s.2.links p.1).isSome = true) ∧
       (∀ p ∈ s.1, sameLinkSet (s.2.get_links p.1) p.2.wiki_links = true) ∧
       (∀ x ∈ s.2.phantoms, s.2.node_exists x = false ∧
          ∃ p ∈ s.2.links, x ∈ p.2) ∧
       (∀ p ∈ s.2.links, ∀ l ∈ p.2,
          s.2.node_exists l = true ∨ l ∈ s.2.phantoms)) := by
  simp only [cacheConsistent, Bool.and_eq_true, decide_eq_true_eq,
    List.all_eq_true, List.any_eq_true, Bool.or_eq_true,
    Bool.not_eq_true']
  constructor
  · rintro ⟨⟨⟨⟨⟨⟨⟨⟨⟨⟨h1, h2⟩, h3⟩, h4⟩, h5⟩, h6⟩, h7⟩, h8⟩, h9⟩, h10⟩, h11⟩
    exact ⟨h1, h2, h3, h4, h5, h6, h7, h8, h9,
      fun x hx => ⟨(h10 x hx).1, (h10 x hx).2⟩, h11⟩
  · rintro ⟨h1, h2, h3, h4, h5, h6, h7, h8, h9, h10, h11⟩
    exact ⟨⟨⟨⟨⟨⟨⟨⟨⟨⟨h1, h2⟩, h3⟩, h4⟩, h5⟩, h6⟩, h7⟩, h8⟩, h9⟩,
      fun x hx => ⟨(h10 x hx).1, (h10 x hx).2⟩⟩, h11⟩

theorem realIds_build_graph (files : List MarkdownFile) :
    realIds (build_graph files) = files.map (fun f => f.name) := by
  rw [realIds, build_graph_nodes, List.filter_append]
  have h1 : (files.map
      (buildNode (buildPass1 files).link_counts)).filter
        (fun n => n.group = none) =
      files.map (buildNode (buildPass1 files).link_counts) := by
    rw [List.filter_eq_self]
    intro n hn
    obtain ⟨f, _, rfl⟩ := List.mem_map.mp hn
    simp [buildNode]
  have h2 : ((((buildPass2 (buildPass1 files).link_counts files
      ([], (buildPass1 files).all_referenced)).2).filter
        (fun p => !p.2)).map
      (buildPhantom (buildPass1 files).link_counts)).filter
        (fun n => n.group = none) = [] := by
    rw [List.filter_eq_nil_iff]
    intro n hn
    obtain ⟨p, _, rfl⟩ := List.mem_map.mp hn
    simp [buildPhantom]
  rw [h1, h2, List.append_nil, List.map_map]
  rfl

theorem phantomIds_build_graph (files : List MarkdownFile) :
    phantomIds (build_graph files) =
      (((buildPass2 (buildPass1 files).link_counts files
        ([], (buildPass1 files).all_referenced)).2).filter
          (fun p => !p.2)).map Prod.fst := by
  rw [phantomIds, build_graph_nodes, List.filter_append]
  have h1 : (files.map
      (buildNode (buildPass1 files).link_counts)).filter
        (fun n => n.group = some "phantom") = [] := by
    rw [List.filter_eq_nil_iff]
    intro n hn
    obtain ⟨f, _, rfl⟩ := List.mem_map.mp hn
    simp [buildNode]
  have h2 : ((((buildPass2 (buildPass1 files).link_counts files
      ([], (buildPass1 files).all_referenced)).2).filter
        (fun p => !p.2)).map
      (buildPhantom (buildPass1 files).link_counts)).filter
        (fun n => n.group = some "phantom") =
      (((buildPass2 (buildPass1 files).link_counts files
        ([], (buildPass1 files).all_referenced)).2).filter
          (fun p => !p.2)).map
        (buildPhantom (buildPass1 files).link_counts) := by
    rw [List.filter_eq_self]
    intro n hn
    obtain ⟨p, _, rfl⟩ := List.mem_map.mp hn
    simp [buildPhantom]
  rw [h1, h2, List.nil_append, List.map_map]
  rfl

/-- An id is a phantom of the rescan snapshot iff it is referenced by
some document's content but is not a document name. -/
theorem mem_phantomIds_build_graph (files : List MarkdownFile)
    (x : String) :
    (x ∈ phantomIds (build_graph files) ↔
      x ∉ files.map (fun f => f.name) ∧
      x ∈ files.flatMap (fun f => (parse_markdown f.content).wiki_links)) := by
  rw [phantomIds_build_graph]
  have har2nodup := buildPass2_snd_nodup
    (buildPass1 files).link_counts files []
    (buildPass1 files).all_referenced (buildPass1_ar_nodup files)
  constructor
  · intro hx
    obtain ⟨p, hpf, rfl⟩ := List.mem_map.mp hx
    have hpar2 := List.mem_of_mem_filter hpf
    have hpfalse : p.2 = false := by
      have := List.of_mem_filter hpf
      simpa using this
    have hlk := lookup_of_mem har2nodup hpar2
    rw [buildPass2_snd_lookup] at hlk
    by_cases hn : p.1 ∈ files.map (fun f => f.name)
    · rw [if_pos hn, hpfalse] at hlk
      cases hlk
    · rw [if_neg hn, buildPass1_ar] at hlk
      by_cases hall : p.1 ∈ files.flatMap
          (fun f => (parse_markdown f.content).wiki_links)
      · exact ⟨hn, hall⟩
      · rw [if_neg hall] at hlk
        cases hlk
  · rintro ⟨hn, hall⟩
    have hlk : mapLookup (buildPass2 (buildPass1 files).link_counts files
        ([], (buildPass1 files).all_referenced)).2 x = some false := by
      rw [buildPass2_snd_lookup, if_neg hn, buildPass1_ar, if_pos hall]
      have : fileMapContains files x = false := by
        rw [← Bool.not_eq_true]
        intro hcontra
        exact hn ((fileMapContains_iff files x).mp hcontra)
      rw [this]
    refine List.mem_map.mpr ⟨(x, false), ?_, rfl⟩
    exact List.mem_filter.mpr ⟨mapLookup_mem hlk, by simp⟩

/-- A consistent index and its directory yield, on a full rescan, the
same Real ids, the same Phantom ids and the same edge set as the graph
derived from the live index. -/
theorem consistent_snapshot (s : Corpus × GraphCache)
    (hc : cacheConsistent s = true) :
    ((realIds (build_graph (corpusFiles s.1))).toFinset =
       (s.2.files.map Prod.fst).toFinset ∧
     (phantomIds (build_graph (corpusFiles s.1))).toFinset =
       s.2.phantoms.toFinset ∧
     (build_graph (corpusFiles s.1)).edges.toFinset =
       (cacheEdges s.2).toFinset) := by
  obtain ⟨hnd1, hnd2, hnd3, hnd4, h5, h6, h7, h8, h9, h10, h11⟩ :=
    (cacheConsistent_iff s).mp hc
  have hnames : (corpusFiles s.1).map (fun f => f.name) =
      s.1.map Prod.fst := by
    rw [corpusFiles, List.map_map]
    rfl
  -- a directory entry always has a stored link entry with the same
  -- element set as its parsed references
  have hstored : ∀ q ∈ s.1, ∃ ls, (q.1, ls) ∈ s.2.links ∧
      s.2.get_links q.1 = ls ∧
      (∀ y, y ∈ ls ↔ y ∈ q.2.wiki_links) := by
    intro q hq
    have hex := h5 q hq
    rw [node_exists_iff_mem_keys] at hex
    obtain ⟨pf, hpf, hpf1⟩ := List.mem_map.mp hex
    have hlkf := h8 pf hpf
    rw [Option.isSome_iff_exists] at hlkf
    obtain ⟨ls, hls⟩ := hlkf
    rw [hpf1] at hls
    have hmem := mapLookup_mem hls
    have hgl : s.2.get_links q.1 = ls := get_links_entry hnd3 hmem
    refine ⟨ls, hmem, hgl, ?_⟩
    intro y
    have := sameLinkSet_mem (h9 q hq) y
    rw [hgl] at this
    exact this
  -- a stored link entry always has a directory entry with the same
  -- element set
  have hdoc : ∀ p ∈ s.2.links, ∃ cont, (p.1, cont) ∈ s.1 ∧
      (∀ y, y ∈ p.2 ↔ y ∈ cont.wiki_links) := by
    intro p hp
    have hex := h7 p hp
    rw [node_exists_iff_mem_keys] at hex
    obtain ⟨pf, hpf, hpf1⟩ := List.mem_map.mp hex
    have hfs := h6 pf hpf
    rw [Option.isSome_iff_exists] at hfs
    obtain ⟨cont, hcont⟩ := hfs
    rw [hpf1] at hcont
    have hmem := mapLookup_mem hcont
    refine ⟨cont, hmem, ?_⟩
    intro y
    have hsm := sameLinkSet_mem (h9 (p.1, cont) hmem) y
    rw [get_links_entry hnd3 hp] at hsm
    exact hsm
  refine ⟨?_, ?_, ?_⟩
  · ext x
    rw [realIds_build_graph, hnames, List.mem_toFinset, List.mem_toFinset]
    constructor
    · intro hx
      obtain ⟨q, hq, rfl⟩ := List.mem_map.mp hx
      have := h5 q hq
      rw [node_exists_iff_mem_keys] at this
      exact this
    · intro hx
      obtain ⟨pf, hpf, rfl⟩ := List.mem_map.mp hx
      have := h6 pf hpf
      rw [mapLookup_isSome_iff] at this
      exact this
  · ext x
    rw [List.mem_toFinset, List.mem_toFinset,
      mem_phantomIds_build_graph, hnames]
    constructor
    · rintro ⟨hxn, hxl⟩
      rw [List.mem_flatMap] at hxl
      obtain ⟨mf, hmf, hxc⟩ := hxl
      obtain ⟨q, hq, rfl⟩ := List.mem_map.mp hmf
      obtain ⟨ls, hls, -, hiff⟩ := hstored q hq
      have hxls : x ∈ ls := (hiff x).mpr hxc
      rcases h11 (q.1, ls) hls x hxls with hex | hph
      · exfalso
        rw [node_exists_iff_mem_keys] at hex
        obtain ⟨pf, hpf, hpf1⟩ := List.mem_map.mp hex
        have := h6 pf hpf
        rw [mapLookup_isSome_iff, hpf1] at this
        exact hxn this
      · exact hph
    · intro hx
      obtain ⟨hex, p, hp, hxp⟩ := h10 x hx
      obtain ⟨cont, hcont, hiff⟩ := hdoc p hp
      constructor
      · intro hxn
        obtain ⟨q, hq, rfl⟩ := List.mem_map.mp hxn
        have := h5 q hq
        rw [this] at hex
        cases hex
      · rw [List.mem_flatMap]
        exact ⟨⟨(pathOf p.1).raw, cont, p.1⟩,
          List.mem_map.mpr ⟨(p.1, cont), hcont, rfl⟩, (hiff x).mp hxp⟩
  · ext e
    rw [List.mem_toFinset, List.mem_toFinset, build_graph_edges,
      List.mem_flatMap, mem_cacheEdges]
    constructor
    · rintro ⟨mf, hmf, he⟩
      rw [List.mem_map] at he
      obtain ⟨l, hl, rfl⟩ := he
      obtain ⟨q, hq, rfl⟩ := List.mem_map.mp hmf
      obtain ⟨ls, hls, -, hiff⟩ := hstored q hq
      exact ⟨(q.1, ls), hls, l, (hiff l).mpr hl, rfl⟩
    · rintro ⟨p, hp, l, hl, rfl⟩
      obtain ⟨cont, hcont, hiff⟩ := hdoc p hp
      refine ⟨⟨(pathOf p.1).raw, cont, p.1⟩,
        List.mem_map.mpr ⟨(p.1, cont), hcont, rfl⟩, ?_⟩
      rw [List.mem_map]
      exact ⟨l, (hiff l).mp hl, rfl⟩

theorem read_corpus_insert (fsC : Corpus) (name : String)
    (content : ParsedContent) :
    read_markdown_file (pathOf name)
      (corpusFs (mapInsert fsC name content)) =
      .ok ⟨name ++ ".md", content, name⟩ := by
  have hhead : corpusFs (mapInsert fsC name content) =
      (pathOf name, content) ::
        corpusFs (fsC.filter (fun p => p.1 ≠ name)) := by
    rw [corpusFs, mapInsert, List.map_cons]
    rfl
  rw [read_markdown_file, fsRead, hhead, List.find?_cons_of_pos _ (by simp)]
  rfl

theorem consistent_create (s : Corpus × GraphCache) (name : String)
    (content : ParsedContent)
    (hc : cacheConsistent s = true)
    (hok : eventOk s (.create name content) = true) :
    cacheConsistent (applyEvent s (.create name content)) = true := by
  obtain ⟨hnd1, hnd2, hnd3, hnd4, h5, h6, h7, h8, h9, h10, h11⟩ :=
    (cacheConsistent_iff s).mp hc
  have hexn : s.2.node_exists name = false := by
    simpa [eventOk] using hok
  have hnamekeys : name ∉ s.2.files.map Prod.fst := by
    intro hmem
    rw [← node_exists_iff_mem_keys] at hmem
    rw [hmem] at hexn
    cases hexn
  have hnamelinks : name ∉ s.2.links.map Prod.fst := by
    intro hmem
    obtain ⟨p, hp, hp1⟩ := List.mem_map.mp hmem
    have := h7 p hp
    rw [hp1, hexn] at this
    cases this
  have hnamefs : name ∉ s.1.map Prod.fst := by
    intro hmem
    obtain ⟨q, hq, hq1⟩ := List.mem_map.mp hmem
    have := h5 q hq
    rw [hq1, hexn] at this
    cases this
  have hread := read_corpus_insert s.1 name content
  obtain ⟨hfiles, hlinks, hhash, hphm, hphnd⟩ :=
    handle_file_created_cache (pathOf name)
      (corpusFs (mapInsert s.1 name content)) s.2
      ⟨name ++ ".md", content, name⟩ hread
  simp only [applyEvent]
  rw [cacheConsistent_iff]
  have hex' : ∀ y,
      ((handle_file_created (pathOf name)
        (corpusFs (mapInsert s.1 name content)) s.2).2).node_exists y =
      true ↔ (y = name ∨ s.2.node_exists y = true) := by
    intro y
    rw [GraphCache.node_exists, hfiles, mapLookup_insert]
    by_cases hy : y = name
    · simp [hy]
    · rw [if_neg hy]
      simp [hy, GraphCache.node_exists]
  refine ⟨?_, ?_, ?_, ?_, ?_, ?_, ?_, ?_, ?_, ?_, ?_⟩
  · exact nodup_keys_insert _ _ _ hnd1
  · rw [hfiles]
    exact nodup_keys_insert _ _ _ hnd2
  · rw [hlinks]
    exact nodup_keys_insert _ _ _ hnd3
  · exact hphnd hnd4
  · intro p hp
    rw [hex' p.1]
    rcases (mem_mapInsert _ _ _ _).mp hp with rfl | ⟨hpm, _⟩
    · exact Or.inl rfl
    · exact Or.inr (h5 p hpm)
  · intro p hp
    rw [hfiles] at hp
    rw [mapLookup_insert]
    rcases (mem_mapInsert _ _ _ _).mp hp with rfl | ⟨hpm, hpne⟩
    · rw [if_pos rfl]
      rfl
    · rw [if_neg hpne]
      exact h6 p hpm
  · intro p hp
    rw [hlinks] at hp
    rw [hex' p.1]
    rcases (mem_mapInsert _ _ _ _).mp hp with rfl | ⟨hpm, _⟩
    · exact Or.inl rfl
    · exact Or.inr (h7 p hpm)
  · intro p hp
    rw [hfiles] at hp
    rw [hlinks, mapLookup_insert]
    rcases (mem_mapInsert _ _ _ _).mp hp with rfl | ⟨hpm, hpne⟩
    · rw [if_pos rfl]
      rfl
    · rw [if_neg hpne]
      exact h8 p hpm
  · intro p hp
    rw [GraphCache.get_links, hlinks, mapLookup_insert]
    rcases (mem_mapInsert _ _ _ _).mp hp with rfl | ⟨hpm, hpne⟩
    · rw [if_pos rfl]
      exact sameLinkSet_refl _
    · rw [if_neg hpne]
      exact h9 p hpm
  · intro x hx
    rw [hphm x] at hx
    obtain ⟨hxne, hxcase⟩ := hx
    constructor
    · rw [← Bool.not_eq_true, hex' x]
      rintro (rfl | hxex)
      · exact hxne rfl
      · rcases hxcase with hxph | ⟨_, hxf⟩
        · rw [(h10 x hxph).1] at hxex
          cases hxex
        · rw [hxf] at hxex
          cases hxex
    · rcases hxcase with hxph | ⟨hxw, _⟩
      · obtain ⟨-, q, hq, hxq⟩ := h10 x hxph
        have hqne : q.1 ≠ name := by
          intro hq1
          exact hnamelinks (hq1 ▸ List.mem_map.mpr ⟨q, hq, rfl⟩)
        refine ⟨q, ?_, hxq⟩
        rw [hlinks]
        exact (mem_mapInsert _ _ _ _).mpr (Or.inr ⟨hq, hqne⟩)
      · refine ⟨(name, content.wiki_links), ?_, hxw⟩
        rw [hlinks]
        exact (mem_mapInsert _ _ _ _).mpr (Or.inl rfl)
  · intro p hp l hl
    rw [hlinks] at hp
    rcases (mem_mapInsert _ _ _ _).mp hp with rfl | ⟨hpm, hpne⟩
    · by_cases hlex : s.2.node_exists l = true
      · exact Or.inl ((hex' l).mpr (Or.inr hlex))
      · by_cases hln : l = name
        · exact Or.inl ((hex' l).mpr (Or.inl hln))
        · refine Or.inr ?_
          rw [hphm l]
          exact ⟨hln, Or.inr ⟨hl, (Bool.not_eq_true _) ▸ hlex⟩⟩
    · rcases h11 p hpm l hl with hlex | hlph
      · exact Or.inl ((hex' l).mpr (Or.inr hlex))
      · by_cases hln : l = name
        · exact Or.inl ((hex' l).mpr (Or.inl hln))
        · refine Or.inr ?_
          rw [hphm l]
          exact ⟨hln, Or.inl hlph⟩

theorem consistent_modify (s : Corpus × GraphCache) (name : String)
    (content : ParsedContent)
    (hc : cacheConsistent s = true)
    (hok : eventOk s (.modify name content) = true) :
    cacheConsistent (applyEvent s (.modify name content)) = true := by
  obtain ⟨hnd1, hnd2, hnd3, hnd4, h5, h6, h7, h8, h9, h10, h11⟩ :=
    (cacheConsistent_iff s).mp hc
  have hexn : s.2.node_exists name = true := by
    simpa [eventOk] using hok
  have hnamekeys : name ∈ s.2.files.map Prod.fst :=
    (node_exists_iff_mem_keys _ _).mp hexn
  obtain ⟨pf, hpf, hpf1⟩ := List.mem_map.mp hnamekeys
  have hlsome := h8 pf hpf
  rw [Option.isSome_iff_exists] at hlsome
  obtain ⟨oldls, holdls⟩ := hlsome
  rw [hpf1] at holdls
  have holdmem : (name, oldls) ∈ s.2.links := mapLookup_mem holdls
  have hglold : s.2.get_links name = oldls := get_links_entry hnd3 holdmem
  have hread := read_corpus_insert s.1 name content
  simp only [applyEvent]
  rw [cacheConsistent_iff]
  by_cases hs : sameLinkSet (s.2.get_links name) content.wiki_links = true
  · have heq := handle_file_modified_same (pathOf name)
      (corpusFs (mapInsert s.1 name content)) s.2
      ⟨name ++ ".md", content, name⟩ hread hs
    rw [heq]
    refine ⟨nodup_keys_insert _ _ _ hnd1, hnd2, hnd3, hnd4,
      ?_, ?_, h7, h8, ?_, h10, h11⟩
    · intro p hp
      rcases (mem_mapInsert _ _ _ _).mp hp with rfl | ⟨hpm, _⟩
      · exact hexn
      · exact h5 p hpm
    · intro p hp
      rw [mapLookup_insert]
      by_cases hpn : p.1 = name
      · rw [if_pos hpn]
        rfl
      · rw [if_neg hpn]
        exact h6 p hp
    · intro p hp
      rcases (mem_mapInsert _ _ _ _).mp hp with rfl | ⟨hpm, _⟩
      · exact hs
      · exact h9 p hpm
  · have hs' : sameLinkSet (s.2.get_links name) content.wiki_links =
        false := (Bool.not_eq_true _) ▸ hs
    obtain ⟨hfiles, hhash, hlinks, hphm, hphnd, -⟩ :=
      handle_file_modified_changed (pathOf name)
        (corpusFs (mapInsert s.1 name content)) s.2
        ⟨name ++ ".md", content, name⟩ hread hs'
    have hex' : ∀ y,
        ((handle_file_modified (pathOf name)
          (corpusFs (mapInsert s.1 name content)) s.2).2).node_exists y =
        s.2.node_exists y := fun y => node_exists_congr hfiles y
    refine ⟨nodup_keys_insert _ _ _ hnd1, ?_, ?_, hphnd hnd4,
      ?_, ?_, ?_, ?_, ?_, ?_, ?_⟩
    · rw [hfiles]
      exact hnd2
    · rw [hlinks]
      exact nodup_keys_insert _ _ _ hnd3
    · intro p hp
      rw [hex' p.1]
      rcases (mem_mapInsert _ _ _ _).mp hp with rfl | ⟨hpm, _⟩
      · exact hexn
      · exact h5 p hpm
    · intro p hp
      rw [hfiles] at hp
      rw [mapLookup_insert]
      by_cases hpn : p.1 = name
      · rw [if_pos hpn]
        rfl
      · rw [if_neg hpn]
        exact h6 p hp
    · intro p hp
      rw [hlinks] at hp
      rw [hex' p.1]
      rcases (mem_mapInsert _ _ _ _).mp hp with rfl | ⟨hpm, _⟩
      · exact hexn
      · exact h7 p hpm
    · intro p hp
      rw [hfiles] at hp
      rw [hlinks, mapLookup_insert]
      by_cases hpn : p.1 = name
      · rw [if_pos hpn]
        rfl
      · rw [if_neg hpn]
        exact h8 p hp
    · intro p hp
      rw [GraphCache.get_links, hlinks, mapLookup_insert]
      rcases (mem_mapInsert _ _ _ _).mp hp with rfl | ⟨hpm, hpne⟩
      · rw [if_pos rfl]
        exact sameLinkSet_refl _
      · rw [if_neg hpne]
        exact h9 p hpm
    · intro x hx
      rw [hphm x] at hx
      rcases hx with ⟨hxph, hxnot⟩ | ⟨hxadd, hxex⟩
      · refine ⟨by rw [hex' x]; exact (h10 x hxph).1, ?_⟩
        obtain ⟨-, q, hq, hxq⟩ := (h10 x hxph)
        by_cases hqn : q.1 = name
        · have : mapLookup s.2.links q.1 = some q.2 :=
            lookup_of_mem hnd3 hq
          rw [hqn, holdls] at this
          have hq2 : q.2 = oldls := by
            injection this with hinj
            exact hinj.symm
          rw [hq2] at hxq
          by_cases hxnew : x ∈ content.wiki_links
          · refine ⟨(name, content.wiki_links), ?_, hxnew⟩
            rw [hlinks]
            exact (mem_mapInsert _ _ _ _).mpr (Or.inl rfl)
          · have hxdiff : x ∈ setDifference (s.2.get_links name)
                content.wiki_links := by
              rw [mem_setDifference, hglold]
              exact ⟨hxq, hxnew⟩
            have hcnt : 1 < s.2.count_incoming_links x := by
              by_contra hle
              exact hxnot ⟨hxdiff, by omega⟩
            obtain ⟨r, hr, hrne, hxr⟩ :=
              exists_other_referencer (n := name) hnd3 hcnt
            refine ⟨r, ?_, hxr⟩
            rw [hlinks]
            exact (mem_mapInsert _ _ _ _).mpr (Or.inr ⟨hr, hrne⟩)
        · obtain ⟨-, -⟩ := h10 x hxph
          refine ⟨q, ?_, hxq⟩
          rw [hlinks]
          exact (mem_mapInsert _ _ _ _).mpr (Or.inr ⟨hq, hqn⟩)
      · refine ⟨by rw [hex' x]; exact hxex, ?_⟩
        refine ⟨(name, content.wiki_links), ?_, ?_⟩
        · rw [hlinks]
          exact (mem_mapInsert _ _ _ _).mpr (Or.inl rfl)
        · exact ((mem_setDifference _ _ x).mp hxadd).1
    · intro p hp l hl
      rw [hlinks] at hp
      rcases (mem_mapInsert _ _ _ _).mp hp with rfl | ⟨hpm, hpne⟩
      · by_cases hlex : s.2.node_exists l = true
        · exact Or.inl (by rw [hex' l]; exact hlex)
        · by_cases hlold : l ∈ oldls
          · rcases h11 (name, oldls) holdmem l hlold with hlex' | hlph
            · exact absurd hlex' hlex
            · refine Or.inr ?_
              rw [hphm l]
              refine Or.inl ⟨hlph, ?_⟩
              rintro ⟨hldiff, -⟩
              rw [mem_setDifference] at hldiff
              exact hldiff.2 hl
          · refine Or.inr ?_
            rw [hphm l]
            refine Or.inr ⟨?_, (Bool.not_eq_true _) ▸ hlex⟩
            rw [mem_setDifference, hglold]
            exact ⟨hl, hlold⟩
      · rcases h11 p hpm l hl with hlex | hlph
        · exact Or.inl (by rw [hex' l]; exact hlex)
        · refine Or.inr ?_
          rw [hphm l]
          refine Or.inl ⟨hlph, ?_⟩
          rintro ⟨hldiff, hlcnt⟩
          rw [mem_setDifference, hglold] at hldiff
          have := unique_referencer holdmem hldiff.1 hlcnt p hpm hl
          exact hpne this

theorem consistent_delete (s : Corpus × GraphCache) (name : String)
    (hc : cacheConsistent s = true)
    (hok : eventOk s (.delete name) = true) :
    cacheConsistent (applyEvent s (.delete name)) = true := by
  obtain ⟨hnd1, hnd2, hnd3, hnd4, h5, h6, h7, h8, h9, h10, h11⟩ :=
    (cacheConsistent_iff s).mp hc
  have hok' : s.2.node_exists name = true ∧
      name ∉ s.2.get_links name := by
    simpa [eventOk] using hok
  obtain ⟨hexn, hself⟩ := hok'
  have hnamekeys : name ∈ s.2.files.map Prod.fst :=
    (node_exists_iff_mem_keys _ _).mp hexn
  obtain ⟨pf, hpf, hpf1⟩ := List.mem_map.mp hnamekeys
  have hlsome := h8 pf hpf
  rw [Option.isSome_iff_exists] at hlsome
  obtain ⟨oldls, holdls⟩ := hlsome
  rw [hpf1] at holdls
  have holdmem : (name, oldls) ∈ s.2.links := mapLookup_mem holdls
  have hglold : s.2.get_links name = oldls := get_links_entry hnd3 holdmem
  have hselfold : name ∉ oldls := by
    rw [hglold] at hself
    exact hself
  obtain ⟨-, hfiles, hlinks, hhash, hphm, hphnd⟩ :=
    handle_file_deleted_cache (pathOf name) s.2 name rfl
  simp only [applyEvent]
  rw [cacheConsistent_iff]
  have hex' : ∀ y,
      ((handle_file_deleted (pathOf name) s.2).2).node_exists y = true ↔
      (y ≠ name ∧ s.2.node_exists y = true) := by
    intro y
    rw [GraphCache.node_exists, hfiles, mapLookup_remove]
    by_cases hy : y = name
    · simp [hy]
    · rw [if_neg hy]
      simp [hy, GraphCache.node_exists]
  refine ⟨nodup_keys_remove _ _ hnd1, ?_, ?_, hphnd hnd4,
    ?_, ?_, ?_, ?_, ?_, ?_, ?_⟩
  · rw [hfiles]
    exact nodup_keys_remove _ _ hnd2
  · rw [hlinks]
    exact nodup_keys_remove _ _ hnd3
  · intro p hp
    obtain ⟨hpm, hpne⟩ := (mem_mapRemove _ _ _).mp hp
    exact (hex' p.1).mpr ⟨hpne, h5 p hpm⟩
  · intro p hp
    rw [hfiles] at hp
    obtain ⟨hpm, hpne⟩ := (mem_mapRemove _ _ _).mp hp
    rw [mapLookup_remove, if_neg hpne]
    exact h6 p hpm
  · intro p hp
    rw [hlinks] at hp
    obtain ⟨hpm, hpne⟩ := (mem_mapRemove _ _ _).mp hp
    exact (hex' p.1).mpr ⟨hpne, h7 p hpm⟩
  · intro p hp
    rw [hfiles] at hp
    obtain ⟨hpm, hpne⟩ := (mem_mapRemove _ _ _).mp hp
    rw [hlinks, mapLookup_remove, if_neg hpne]
    exact h8 p hpm
  · intro p hp
    obtain ⟨hpm, hpne⟩ := (mem_mapRemove _ _ _).mp hp
    rw [GraphCache.get_links, hlinks, mapLookup_remove, if_neg hpne]
    exact h9 p hpm
  · intro x hx
    rw [hphm x] at hx
    rcases hx with ⟨hcnt0, rfl⟩ | ⟨hxph, hxnot⟩
    · constructor
      · rw [← Bool.not_eq_true, hex' x]
        rintro ⟨hne, -⟩
        exact hne rfl
      · obtain ⟨q, hq, hxq⟩ := referencer_of_count_pos hcnt0
        have hqne : q.1 ≠ x := by
          intro hq1
          have : mapLookup s.2.links q.1 = some q.2 :=
            lookup_of_mem hnd3 hq
          rw [hq1, holdls] at this
          have hq2 : q.2 = oldls := by
            injection this with hinj
            exact hinj.symm
          rw [hq2] at hxq
          exact hselfold hxq
        refine ⟨q, ?_, hxq⟩
        rw [hlinks]
        exact (mem_mapRemove _ _ _).mpr ⟨hq, hqne⟩
    · have hxne : x ≠ name := by
        intro hcontra
        have := (h10 x hxph).1
        rw [hcontra, hexn] at this
        cases this
      constructor
      · rw [← Bool.not_eq_true, hex' x]
        rintro ⟨-, hxex⟩
        rw [(h10 x hxph).1] at hxex
        cases hxex
      · obtain ⟨-, q, hq, hxq⟩ := h10 x hxph
        by_cases hqn : q.1 = name
        · have : mapLookup s.2.links q.1 = some q.2 :=
            lookup_of_mem hnd3 hq
          rw [hqn, holdls] at this
          have hq2 : q.2 = oldls := by
            injection this with hinj
            exact hinj.symm
          rw [hq2] at hxq
          have hcnt : 1 < s.2.count_incoming_links x := by
            by_contra hle
            refine hxnot ⟨?_, by omega⟩
            rw [hglold]
            exact hxq
          obtain ⟨r, hr, hrne, hxr⟩ :=
            exists_other_referencer (n := name) hnd3 hcnt
          refine ⟨r, ?_, hxr⟩
          rw [hlinks]
          exact (mem_mapRemove _ _ _).mpr ⟨hr, hrne⟩
        · refine ⟨q, ?_, hxq⟩
          rw [hlinks]
          exact (mem_mapRemove _ _ _).mpr ⟨hq, hqn⟩
  · intro p hp l hl
    rw [hlinks] at hp
    obtain ⟨hpm, hpne⟩ := (mem_mapRemove _ _ _).mp hp
    rcases h11 p hpm l hl with hlex | hlph
    · by_cases hln : l = name
      · refine Or.inr ?_
        rw [hphm l]
        refine Or.inl ⟨?_, hln⟩
        subst hln
        exact count_pos_of_referencer hpm hl
      · exact Or.inl ((hex' l).mpr ⟨hln, hlex⟩)
    · refine Or.inr ?_
      rw [hphm l]
      refine Or.inr ⟨hlph, ?_⟩
      rintro ⟨hlold, hlcnt⟩
      rw [hglold] at hlold
      exact hpne (unique_referencer holdmem hlold hlcnt p hpm hl)

theorem consistent_preserved (s : Corpus × GraphCache) (ev : DocEvent)
    (hc : cacheConsistent s = true) (hok : eventOk s ev = true) :
    cacheConsistent (applyEvent s ev) = true := by
  cases ev with
  | create name content => exact consistent_create s name content hc hok
  | modify name content => exact consistent_modify s name content hc hok
  | delete name => exact consistent_delete s name hc hok

/-- C2 counterexample: starting from an empty directory and index, the
successfully processed trace create(A, "[[B]][[B]]") then modify(A,
"[[B]]") leaves the index's stored list at [B, B] (the modify
early-returns on set equality) while the directory holds one reference:
the rescan snapshot's edge multiset (one A→B) differs from the edge
multiset derived from the live index (two A→B). -/
theorem rescan_equivalence_not_multiset :
    (validTrace ([], GraphCache.new)
       [DocEvent.create "A" ⟨["B", "B"], []⟩,
        DocEvent.modify "A" ⟨["B"], []⟩] = true ∧
     (handle_file_created (pathOf "A")
        (corpusFs (mapInsert [] "A" ⟨["B", "B"], []⟩))
        GraphCache.new).1.isOk = true ∧
     (handle_file_modified (pathOf "A")
        (corpusFs (mapInsert
          (mapInsert [] "A" (⟨["B", "B"], []⟩ : ParsedContent))
          "A" ⟨["B"], []⟩))
        (handle_file_created (pathOf "A")
          (corpusFs (mapInsert [] "A" ⟨["B", "B"], []⟩))
          GraphCache.new).2).1.isOk = true ∧
     ¬ (build_graph (corpusFiles
          (List.foldl applyEvent ([], GraphCache.new)
            [DocEvent.create "A" ⟨["B", "B"], []⟩,
             DocEvent.modify "A" ⟨["B"], []⟩]).1)).edges.Perm
        (cacheEdges
          (List.foldl applyEvent ([], GraphCache.new)
            [DocEvent.create "A" ⟨["B", "B"], []⟩,
             DocEvent.modify "A" ⟨["B"], []⟩]).2)) :=
  ⟨by rfl, by rfl, by rfl, by decide⟩

/-- C2 amended: for every initially consistent index-and-directory
state and every admissible trace of create/modify/delete events
(creates on unknown ids, modifies and deletes on known ones, no delete
of a self-referencing document — the divergence recorded against
C3/C4), a full rescan of the resulting directory produces a snapshot
whose Real id set, Phantom id set and edge **set** agree with the graph
derived from the live index.  Node values and edge multiplicities are
not preserved in general: a modify that changes only multiplicities
leaves the stored list stale (C5). -/
theorem rescan_equivalence_upto_sets (s : Corpus × GraphCache)
    (evs : List DocEvent)
    (hc : cacheConsistent s = true)
    (hv : validTrace s evs = true) :
    ((realIds (build_graph
        (corpusFiles (evs.foldl applyEvent s).1))).toFinset =
       (((evs.foldl applyEvent s).2).files.map Prod.fst).toFinset ∧
     (phantomIds (build_graph
        (corpusFiles (evs.foldl applyEvent s).1))).toFinset =
       ((evs.foldl applyEvent s).2).phantoms.toFinset ∧
     ((build_graph (corpusFiles (evs.foldl applyEvent s).1)).edges).toFinset =
       (cacheEdges ((evs.foldl applyEvent s).2)).toFinset) := by
  induction evs generalizing s with
  | nil => exact consistent_snapshot s hc
  | cons ev rest ih =>
      simp only [validTrace, Bool.and_eq_true] at hv
      rw [List.foldl_cons]
      exact ih (applyEvent s ev) (consistent_preserved s ev hc hv.1) hv.2

/-- C2 amended witness: after create(A, "[[B]]") from the empty state,
the rescan snapshot and the live index agree on Real ids {A}, Phantom
ids {B} and the edge set {A→B}. -/
theorem rescan_equivalence_upto_sets_witness :
    ((realIds (build_graph (corpusFiles
        (List.foldl applyEvent ([], GraphCache.new)
          [DocEvent.create "A" ⟨["B"], []⟩]).1))).toFinset =
       (((List.foldl applyEvent ([], GraphCache.new)
          [DocEvent.create "A" ⟨["B"], []⟩]).2).files.map
            Prod.fst).toFinset ∧
     (phantomIds (build_graph (corpusFiles
        (List.foldl applyEvent ([], GraphCache.new)
          [DocEvent.create "A" ⟨["B"], []⟩]).1))).toFinset =
       ((List.foldl applyEvent ([], GraphCache.new)
          [DocEvent.create "A" ⟨["B"], []⟩]).2).phantoms.toFinset ∧
     ((build_graph (corpusFiles
        (List.foldl applyEvent ([], GraphCache.new)
          [DocEvent.create "A" ⟨["B"], []⟩]).1)).edges).toFinset =
       (cacheEdges ((List.foldl applyEvent ([], GraphCache.new)
          [DocEvent.create "A" ⟨["B"], []⟩]).2)).toFinset) :=
  rescan_equivalence_upto_sets ([], GraphCache.new)
    [DocEvent.create "A" ⟨["B"], []⟩] (by decide) (by decide)

end MdGraph
